import Mathlib

/-!
Shallow embedding of the SNZI (Scalable NonZero Indicator) repository:
the three variant classes of `snzi.hpp` (`no_contention_handling_snzi`,
`semi_contention_handling_snzi`, `full_contention_handling_snzi`), the
exponential backoff helper of `backoff.hpp`, and the packed stamp/counter
utility of `stamped_counter.hpp`.

Modelling conventions.

* Node counters are `std::atomic<std::uint64_t>`; they are embedded as `Nat`
  with every increment and decrement reduced modulo `2 ^ 64`, exactly as the
  unsigned machine arithmetic wraps (`x - 1` on `uint64_t` is
  `(x + 2 ^ 64 - 1) % 2 ^ 64`).
* The operations are given their sequential (single-thread,
  interference-free) semantics: a `compare_exchange` loop whose observed
  value cannot change succeeds on its first iteration with `oldx` equal to
  the initially loaded value, so the compensating parent `Depart` in
  `node::Arrive` (taken only when `pArrInv && oldx`) never fires, and the
  announce-gated delay loop of the contention variants re-reads an unchanged
  counter sixteen times and then proceeds with `doArrive == true`.
* The `others` node array is embedded as total functions `Nat → Nat` /
  `Nat → Bool` from indices to counter/flag values; slot 0 is present but,
  as in the source, never used by the operations (claim C9 makes this
  precise via instrumented variants that record every accessed index).
* Tree-shape arithmetic (`pow_int`, `nodes_count`, `get_leaf_for_thread`)
  is performed by the source on `std::size_t`; it is embedded as `Nat` with
  every multiplication, subtraction and addition reduced modulo `2 ^ 64`
  exactly as the unsigned machine arithmetic wraps.  The constructor's
  `static_cast<size_type>(std::ceil((double)T / (double)total_leaf_nodes))`
  is modelled bit-exactly: both operands are rounded to the nearest IEEE-754
  double (ties to even, 53-bit significand) and the division is correctly
  rounded before the ceiling is taken.
-/

/-- Modulus of the 64-bit unsigned counters (`counter_type = std::uint64_t`). -/
def U64 : Nat := 2 ^ 64

/-- Pointwise update of a function modelling an array slot write. -/
def upd {α : Type} (f : Nat → α) (i : Nat) (v : α) : Nat → α :=
  fun j => if j = i then v else f j

/-- Wrapping 64-bit increment: the effect of `fetch_add(1)` or a successful
CAS from `oldx` to `oldx + 1` on a `std::uint64_t`. -/
def ctrInc (x : Nat) : Nat := (x + 1) % U64

/-- Wrapping 64-bit decrement: the effect of `fetch_sub(1)` or a successful
CAS from `oldx` to `oldx - 1` on a `std::uint64_t` (unsigned wraparound). -/
def ctrDec (x : Nat) : Nat := (x + (U64 - 1)) % U64

/-- Wrapping 64-bit subtraction: `x - y` on `std::size_t` or
`std::uint64_t` (unsigned wraparound). -/
def sub64 (x y : Nat) : Nat := (x + (U64 - y % U64)) % U64

/-! Tree-shape arithmetic, shared verbatim by the three variant classes
(`snzi.hpp` repeats the same static member functions in each class). -/

/-- Embeds `pow_int` (snzi.hpp): `b` raised to `e` by repeated
multiplication (`for i in 1..e: result *= b`) on `std::size_t`, so every
multiplication wraps modulo `2 ^ 64`. -/
def pow_int (b : Nat) : Nat → Nat
  | 0 => 1
  | e + 1 => pow_int b e * b % U64

/-- Embeds `nodes_count` (snzi.hpp): number of nodes of a perfect K-ary tree
of height `H`, computed as `(pow_int(K, H+1) - 1) / (K - 1)` on
`std::size_t`: the subtraction wraps (it does so exactly when the wrapped
power is 0).  The constructors reject `K < 2` before calling this, so the
`K - 1` divisor is exact in every reachable call. -/
def nodes_count (K H : Nat) : Nat := sub64 (pow_int K (H + 1)) 1 / (K - 1)

/-- Embeds `leaves_count` (snzi.hpp): `pow_int(K, H)` leaves (wrapped). -/
def leaves_count (K H : Nat) : Nat := pow_int K H

/-- Embeds `parent` (snzi.hpp): the parent of node `id` is `(id - 1) / K`. -/
def parent (K id : Nat) : Nat := (id - 1) / K

/-- Fuel-bounded bit length: for `n < 2 ^ fuel` this is the number of
binary digits of `n` (0 for `n = 0`). -/
def bitLenAux : Nat → Nat → Nat
  | 0, _ => 0
  | fuel + 1, n => if n = 0 then 0 else bitLenAux fuel (n / 2) + 1

/-- Number of binary digits of `n` (that is, `⌊log2 n⌋ + 1` for `n ≥ 1`);
320 bits of fuel cover every value arising in this development. -/
def bitLen (n : Nat) : Nat := bitLenAux 320 n

/-- Rounds a nonnegative integer to the nearest IEEE-754 double
(round-to-nearest, ties-to-even, 53-bit significand), returned as the exact
integer value of that double.  This is the conversion `(double)n` applied
to a `std::size_t` value. -/
def roundDouble (n : Nat) : Nat :=
  if n < 2 ^ 53 then n
  else
    let k := bitLen n - 53
    let q := n >>> k
    let r := n - (q <<< k)
    let half := 1 <<< (k - 1)
    if half < r ∨ (r = half ∧ q % 2 = 1) then (q + 1) <<< k else q <<< k

/-- Round-to-nearest-even integer division: the integer nearest to `p / q`,
ties broken towards the even quotient. -/
def rneDiv (p q : Nat) : Nat :=
  let f := p / q
  let r := p % q
  if q < 2 * r ∨ (2 * r = q ∧ f % 2 = 1) then f + 1 else f

/-- Ceiling of the correctly rounded IEEE-754 double quotient `a / b` of
two exactly representable nonnegative values: the exponent
`e = ⌊log2 (a/b)⌋` is located through a 2^128-scaled integer quotient
(`t = e + 128`), the 53-bit significand is obtained by
round-to-nearest-even, and the ceiling of the resulting double is
returned.  This is `std::ceil((double)T / (double)L)` once both operands
have been converted by `roundDouble`. -/
def ceilFlDiv (a b : Nat) : Nat :=
  let t := bitLen (a <<< 128 / b) - 1
  if t ≤ 180 then
    let sh := 180 - t
    let m := rneDiv (a <<< sh) b
    (m + (1 <<< sh) - 1) >>> sh
  else
    let sh := t - 180
    rneDiv a (b <<< sh) <<< sh

/-- Value stored into the member `threads_per_leaf` by each constructor:
`static_cast<size_type>(std::ceil((double)T / (double)total_leaf_nodes))`,
then clamped to at least 1 (`if (!threads_per_leaf) threads_per_leaf = 1`).
The operand conversions and the division are modelled bit-exactly by
`roundDouble`/`ceilFlDiv`; the final cast reduces modulo `2 ^ 64` (the
source leaves the cast undefined once the ceiling exceeds the size_t
range, as it leaves the division undefined when `total_leaf_nodes` has
wrapped to 0; no settled claim depends on those regions). -/
def tpl_of (K H T : Nat) : Nat :=
  let c := ceilFlDiv (roundDouble T) (roundDouble (leaves_count K H)) % U64
  if c = 0 then 1 else c

/-- Embeds `get_leaf_for_thread` (snzi.hpp): index in the `others` array of
the leaf assigned to thread `tid`:
`total_nodes - total_leaf_nodes + ((tid / threads_per_leaf) % total_leaf_nodes)`
with the size_t subtraction and addition wrapping modulo `2 ^ 64`. -/
def get_leaf_for_thread (K H T tid : Nat) : Nat :=
  (sub64 (nodes_count K H) (leaves_count K H) +
    ((tid / tpl_of K H T) % leaves_count K H)) % U64

/-- Number of nodes of a perfect K-ary tree of height `n - 1` written as the
level-by-level recurrence `g 0 = 0`, `g (d+1) = 1 + K * g d`; `g d` is also
the index of the first node of depth `d` in the level-order layout. -/
def geomS (K : Nat) : Nat → Nat
  | 0 => 0
  | d + 1 => 1 + K * geomS K d

/-! Exponential backoff (`backoff.hpp`). -/

/-- Embeds the constant `exponential_backoff::MAX_TRIES` (backoff.hpp). -/
def MAX_TRIES : Nat := 16

/-- Observable effect of one `exponential_backoff::backoff()` call: either
busy-wait executing the `pause` instruction a given number of times (the
private `backoff(delay)` loop), or `std::this_thread::yield()`. -/
inductive BackoffAction : Type where
  | pause : Nat → BackoffAction
  | yield : BackoffAction
deriving DecidableEq, Repr

/-- State of an `exponential_backoff` object: the member `tries`. -/
structure ExpBackoff where
  tries : Nat
deriving DecidableEq, Repr

/-- A freshly constructed `exponential_backoff` (`tries{1}`). -/
def backoffInit : ExpBackoff := ⟨1⟩

/-- Embeds `exponential_backoff::backoff()`: if `tries <= MAX_TRIES`, pause
`tries` times and double `tries`; otherwise yield, leaving `tries` alone.
(`tries` never exceeds 32 on any reachable state, so the `size_t`
multiplication cannot wrap.) -/
def backoffStep (b : ExpBackoff) : BackoffAction × ExpBackoff :=
  if b.tries ≤ MAX_TRIES then (BackoffAction.pause b.tries, ⟨b.tries * 2⟩)
  else (BackoffAction.yield, b)

/-- Embeds `exponential_backoff::reset()`: set `tries` back to 1. -/
def backoffReset (_ : ExpBackoff) : ExpBackoff := ⟨1⟩

/-- The `exponential_backoff` state after `n` calls to `backoff()` starting
from a fresh object. -/
def nthBackoffState (n : Nat) : ExpBackoff :=
  (fun b => (backoffStep b).2)^[n] backoffInit

/-- The action performed by the `(n+1)`-st call to `backoff()` on an object
that has already absorbed `n` calls since construction. -/
def nthBackoffAction (n : Nat) : BackoffAction :=
  (backoffStep (nthBackoffState n)).1

/-! Stamped counter (`stamped_counter.hpp`). -/

namespace StampedCounter

/-- Embeds `stamped_counter::pack`: `static_cast<uint64>(stamp) << 32 | counter`. -/
def pack (stamp counter : Nat) : Nat := (stamp <<< 32) ||| counter

/-- Embeds `stamped_counter::extract_stamp`:
`(val & 0xFFFFFFFF00000000) >> 32`. -/
def extract_stamp (val : Nat) : Nat := (val &&& 0xFFFFFFFF00000000) >>> 32

/-- Embeds `stamped_counter::extract_counter`: `val & 0x00000000FFFFFFFF`. -/
def extract_counter (val : Nat) : Nat := val &&& 0x00000000FFFFFFFF

/-- A `stamped_counter` object: one 64-bit member `value`. -/
structure stamped_counter where
  value : Nat
deriving DecidableEq, Repr

/-- Embeds the constructor `stamped_counter(stamp, counter)`. -/
def ofParts (stamp counter : Nat) : stamped_counter := ⟨pack stamp counter⟩

/-- Embeds the constructor `stamped_counter(val)`. -/
def ofValue (val : Nat) : stamped_counter := ⟨val⟩

/-- Embeds the const accessor `stamped_counter::stamp()`. -/
def stamp (sc : stamped_counter) : Nat := extract_stamp sc.value

/-- Embeds the const accessor `stamped_counter::counter()`. -/
def counter (sc : stamped_counter) : Nat := extract_counter sc.value

/-- Embeds `stamped_counter::get_value()`. -/
def get_value (sc : stamped_counter) : Nat := sc.value

end StampedCounter

/-! No-contention variant (`no_contention_handling_snzi`). -/

/-- State of a `no_contention_handling_snzi` tree: the root counter
`root.X` and the counters `others[j].X` of the node array. -/
@[ext] structure NCState where
  rootX : Nat
  X : Nat → Nat

/-- The state right after construction: every counter is zero
(`root_node()` and `node()` both store 0). -/
def freshNC : NCState := { rootX := 0, X := fun _ => 0 }

/-- Embeds `root_node::Arrive` (no-contention variant): `X.fetch_add(1)`. -/
def ncRootArrive (s : NCState) : NCState := { s with rootX := ctrInc s.rootX }

/-- Embeds `root_node::Depart` (no-contention variant): `X.fetch_sub(1)`. -/
def ncRootDepart (s : NCState) : NCState := { s with rootX := ctrDec s.rootX }

/-- Embeds `no_contention_handling_snzi::Query` via `root_node::Query`:
`X.load() != 0`. -/
def ncQuery (s : NCState) : Bool := s.rootX != 0

/-- Sequential semantics of `no_contention_handling_snzi::node::Arrive` on
node `i`.  With `oldx` equal to the stored counter: if `oldx == 0`, first
arrive at the parent (`root` when `parent == 0`, else `others[parent]`),
then CAS the counter from `oldx` to `oldx + 1`; the compensating parent
`Depart` requires `pArrInv && oldx`, which is impossible sequentially.
The parent call touches only indices less than `i`, so the CAS write stores
`ctrInc (s.X i)`. -/
def ncNodeArrive (K : Nat) (s : NCState) (i : Nat) : NCState :=
  if h : i = 0 then s
  else
    if s.X i = 0 then
      let s2 := if (i - 1) / K = 0 then ncRootArrive s
                else ncNodeArrive K s ((i - 1) / K)
      { s2 with X := upd s2.X i (ctrInc (s.X i)) }
    else
      { s with X := upd s.X i (ctrInc (s.X i)) }
termination_by i
decreasing_by exact Nat.lt_of_le_of_lt (Nat.div_le_self _ _) (by omega)

/-- Sequential semantics of `no_contention_handling_snzi::node::Depart` on
node `i`: CAS the counter from `oldx` to `oldx - 1`; if `oldx == 1`,
propagate a `Depart` to the parent (`root` when `parent == 0`). -/
def ncNodeDepart (K : Nat) (s : NCState) (i : Nat) : NCState :=
  if h : i = 0 then s
  else
    if s.X i = 1 then
      let s1 : NCState := { s with X := upd s.X i (ctrDec (s.X i)) }
      if (i - 1) / K = 0 then ncRootDepart s1
      else ncNodeDepart K s1 ((i - 1) / K)
    else
      { s with X := upd s.X i (ctrDec (s.X i)) }
termination_by i
decreasing_by exact Nat.lt_of_le_of_lt (Nat.div_le_self _ _) (by omega)

/-- Embeds `no_contention_handling_snzi::Arrive(tid)`: dispatch on
`get_leaf_for_thread(tid)` — `case 0` goes to the root object, any other
leaf index to `others[leaf]`. -/
def ncArrive (K H T tid : Nat) (s : NCState) : NCState :=
  if get_leaf_for_thread K H T tid = 0 then ncRootArrive s
  else ncNodeArrive K s (get_leaf_for_thread K H T tid)

/-- Embeds `no_contention_handling_snzi::Depart(tid)`. -/
def ncDepart (K H T tid : Nat) (s : NCState) : NCState :=
  if get_leaf_for_thread K H T tid = 0 then ncRootDepart s
  else ncNodeDepart K s (get_leaf_for_thread K H T tid)

/-- Instrumented form of `ncNodeArrive` that additionally returns the list
of `others`-array indices the operation reads or writes (each node operates
on its own slot; a parent call on `others[parent]` recurses, while
`parent == 0` dispatches to the separate root object and touches no slot). -/
def ncNodeArriveAcc (K : Nat) (s : NCState) (i : Nat) : NCState × List Nat :=
  if h : i = 0 then (s, [])
  else
    if s.X i = 0 then
      if (i - 1) / K = 0 then
        ({ ncRootArrive s with X := upd (ncRootArrive s).X i (ctrInc (s.X i)) }, [i])
      else
        let r := ncNodeArriveAcc K s ((i - 1) / K)
        ({ r.1 with X := upd r.1.X i (ctrInc (s.X i)) }, i :: r.2)
    else
      ({ s with X := upd s.X i (ctrInc (s.X i)) }, [i])
termination_by i
decreasing_by exact Nat.lt_of_le_of_lt (Nat.div_le_self _ _) (by omega)

/-- Instrumented form of `ncNodeDepart` recording accessed `others` indices. -/
def ncNodeDepartAcc (K : Nat) (s : NCState) (i : Nat) : NCState × List Nat :=
  if h : i = 0 then (s, [])
  else
    if s.X i = 1 then
      if (i - 1) / K = 0 then
        (ncRootDepart { s with X := upd s.X i (ctrDec (s.X i)) }, [i])
      else
        let r := ncNodeDepartAcc K { s with X := upd s.X i (ctrDec (s.X i)) } ((i - 1) / K)
        (r.1, i :: r.2)
    else
      ({ s with X := upd s.X i (ctrDec (s.X i)) }, [i])
termination_by i
decreasing_by exact Nat.lt_of_le_of_lt (Nat.div_le_self _ _) (by omega)

/-- Instrumented form of `ncArrive`: `case 0` uses the root object and
touches no slot of `others`. -/
def ncArriveAcc (K H T tid : Nat) (s : NCState) : NCState × List Nat :=
  if get_leaf_for_thread K H T tid = 0 then (ncRootArrive s, [])
  else ncNodeArriveAcc K s (get_leaf_for_thread K H T tid)

/-- Instrumented form of `ncDepart`. -/
def ncDepartAcc (K H T tid : Nat) (s : NCState) : NCState × List Nat :=
  if get_leaf_for_thread K H T tid = 0 then (ncRootDepart s, [])
  else ncNodeDepartAcc K s (get_leaf_for_thread K H T tid)

/-! Semi-contention variant (`semi_contention_handling_snzi`).  Its node
also carries the `announce` flag; `full_contention_handling_snzi::node` is
textually identical, so these definitions also embed the tree path of the
full variant. -/

/-- State of a `semi_contention_handling_snzi` tree: the root counter and,
for each node of `others`, the counter `X` and the flag `announce`. -/
@[ext] structure SCState where
  rootX : Nat
  X : Nat → Nat
  announce : Nat → Bool

/-- The state right after construction (`X.store(0); announce.store(false)`). -/
def freshSC : SCState := { rootX := 0, X := fun _ => 0, announce := fun _ => false }

/-- Embeds `root_node::Arrive` (semi variant): `X.fetch_add(1)`. -/
def scRootArrive (s : SCState) : SCState := { s with rootX := ctrInc s.rootX }

/-- Embeds `root_node::Depart` (semi variant): `X.fetch_sub(1)`. -/
def scRootDepart (s : SCState) : SCState := { s with rootX := ctrDec s.rootX }

/-- Embeds `semi_contention_handling_snzi::Query`: `root.X.load() != 0`. -/
def scQuery (s : SCState) : Bool := s.rootX != 0

/-- Sequential semantics of `semi_contention_handling_snzi::node::Arrive` on
node `i`.  If `oldx == 0`: when `announce` is already set, the delay loop
re-loads the (sequentially unchanged) counter sixteen times and `doArrive`
stays true, so in either case the node stores `announce := true`, arrives at
its parent, and the CAS then raises the counter from `oldx` to `oldx + 1`.
The compensating parent `Depart` (`pArrInv && oldx`) cannot fire
sequentially. -/
def scNodeArrive (K : Nat) (s : SCState) (i : Nat) : SCState :=
  if h : i = 0 then s
  else
    if s.X i = 0 then
      let s2 := if (i - 1) / K = 0 then
                  scRootArrive { s with announce := upd s.announce i true }
                else
                  scNodeArrive K { s with announce := upd s.announce i true } ((i - 1) / K)
      { s2 with X := upd s2.X i (ctrInc (s.X i)) }
    else
      { s with X := upd s.X i (ctrInc (s.X i)) }
termination_by i
decreasing_by exact Nat.lt_of_le_of_lt (Nat.div_le_self _ _) (by omega)

/-- Sequential semantics of `semi_contention_handling_snzi::node::Depart` on
node `i`: when `oldx == 1` the loop stores `announce := false` before the
(strong) CAS lowers the counter to 0 and the `Depart` propagates to the
parent; otherwise only the counter is lowered. -/
def scNodeDepart (K : Nat) (s : SCState) (i : Nat) : SCState :=
  if h : i = 0 then s
  else
    if s.X i = 1 then
      if (i - 1) / K = 0 then
        scRootDepart
          { s with announce := upd s.announce i false, X := upd s.X i (ctrDec (s.X i)) }
      else
        scNodeDepart K
          { s with announce := upd s.announce i false, X := upd s.X i (ctrDec (s.X i)) }
          ((i - 1) / K)
    else
      { s with X := upd s.X i (ctrDec (s.X i)) }
termination_by i
decreasing_by exact Nat.lt_of_le_of_lt (Nat.div_le_self _ _) (by omega)

/-- Embeds `semi_contention_handling_snzi::Arrive(tid)`. -/
def scArrive (K H T tid : Nat) (s : SCState) : SCState :=
  if get_leaf_for_thread K H T tid = 0 then scRootArrive s
  else scNodeArrive K s (get_leaf_for_thread K H T tid)

/-- Embeds `semi_contention_handling_snzi::Depart(tid)`. -/
def scDepart (K H T tid : Nat) (s : SCState) : SCState :=
  if get_leaf_for_thread K H T tid = 0 then scRootDepart s
  else scNodeDepart K s (get_leaf_for_thread K H T tid)

/-- Forgetting the announce flags projects a semi-contention state onto a
no-contention state; the counters evolve identically in both variants. -/
def projNC (s : SCState) : NCState := { rootX := s.rootX, X := s.X }

/-! Full-contention variant (`full_contention_handling_snzi`). -/

/-- Embeds `contention_status::MaxContentionNumFailures` (snzi.hpp). -/
def MaxContentionNumFailures : Nat := 5

/-- Embeds `full_contention_handling_snzi::contention_status`: the three
per-thread escalation flags, all initialized `false`. -/
structure contention_status where
  use_snzi_in_arrive : Bool
  use_snzi_in_depart : Bool
  use_snzi_tree_flag : Bool
deriving DecidableEq, Repr

/-- A default-constructed `contention_status` (all members `{false}`). -/
def freshStatus : contention_status := ⟨false, false, false⟩

/-- Embeds `root_node::ArriveDirectly(cont)`: the CAS loop (with exponential
backoff) eventually adds 1 to the root counter; `f` is the number of CAS
failures observed in this call (0 in a sequential execution).  If the
failures reach `MaxContentionNumFailures`, `cont.use_snzi_tree_flag` is set. -/
def ArriveDirectly (f : Nat) (x : Nat) (cont : contention_status) :
    Nat × contention_status :=
  ((x + 1) % U64,
   if MaxContentionNumFailures ≤ f then { cont with use_snzi_tree_flag := true }
   else cont)

/-- Embeds `root_node::DepartDirectly(cont)`: unconditional `fetch_sub(1)`
via `Depart()`, then if `use_snzi_tree_flag` is set, both
`use_snzi_in_arrive` and `use_snzi_in_depart` are set. -/
def DepartDirectly (x : Nat) (cont : contention_status) :
    Nat × contention_status :=
  ((x + (U64 - 1)) % U64,
   if cont.use_snzi_tree_flag then
     { cont with use_snzi_in_arrive := true, use_snzi_in_depart := true }
   else cont)

/-- Embeds `full_contention_handling_snzi::Arrive(tid, cont)`: while
`use_snzi_in_arrive` is false the thread takes the direct root path
(`ArriveDirectly`); afterwards it goes through the tree exactly as the semi
variant does.  `f` is the number of CAS failures the direct path observes. -/
def fcArrive (K H T tid f : Nat) (p : SCState × contention_status) :
    SCState × contention_status :=
  if p.2.use_snzi_in_arrive = false then
    let r := ArriveDirectly f p.1.rootX p.2
    ({ p.1 with rootX := r.1 }, r.2)
  else
    (scArrive K H T tid p.1, p.2)

/-- Embeds `full_contention_handling_snzi::Depart(tid, cont)`. -/
def fcDepart (K H T tid : Nat) (p : SCState × contention_status) :
    SCState × contention_status :=
  if p.2.use_snzi_in_depart = false then
    let r := DepartDirectly p.1.rootX p.2
    ({ p.1 with rootX := r.1 }, r.2)
  else
    (scDepart K H T tid p.1, p.2)

/-- Embeds `full_contention_handling_snzi::Query`: `root.X.load() != 0`. -/
def fcQuery (p : SCState × contention_status) : Bool := p.1.rootX != 0

/-- Sequential `Arrive(tid, cont)` of the full variant: with no interference
the direct path's CAS succeeds on its first attempt, i.e. with 0 failures. -/
def fcArriveSeq (K H T tid : Nat) (p : SCState × contention_status) :
    SCState × contention_status :=
  fcArrive K H T tid 0 p

/-- Sequential `Depart(tid, cont)` of the full variant. -/
def fcDepartSeq (K H T tid : Nat) (p : SCState × contention_status) :
    SCState × contention_status :=
  fcDepart K H T tid p

/-- A freshly constructed full-contention tree paired with a fresh
per-thread `contention_status`. -/
def freshFC : SCState × contention_status := (freshSC, freshStatus)

/-! Construction (the three constructors are textually identical up to the
node type; `mkTree` embeds the member initialization they perform). -/

/-- The member state a variant constructor establishes: the scalar members,
the zero-initialized counters/flags, and the parent indices written by the
loop `for (i = 1; i < total_nodes; ++i) others[i].parent = parent(i)`. -/
structure SnziRep where
  arity : Nat
  total_nodes : Nat
  total_leaf_nodes : Nat
  threads_per_leaf : Nat
  total_threads : Nat
  rootX : Nat
  nodesX : Nat → Nat
  nodesAnnounce : Nat → Bool
  nodesParent : Nat → Nat

/-- Embeds the body of the variant constructors for parameters `(K, H, T)`
(after the `K < 2` check has passed): `new node[total_nodes]` default-
initializes every counter to 0 and every announce flag to false (the
no-contention node simply has no flag), and the loop fixes the parent index
of every node with index in `[1, total_nodes)`.  `others[i].parent` is
indeterminate outside that range (slot 0's parent is never written nor
read); the model maps it to 0 there. -/
def mkTree (K H T : Nat) : SnziRep :=
  { arity := K
    total_nodes := nodes_count K H
    total_leaf_nodes := leaves_count K H
    threads_per_leaf := tpl_of K H T
    total_threads := T
    rootX := 0
    nodesX := fun _ => 0
    nodesAnnounce := fun _ => false
    nodesParent :=
      (List.range' 1 (nodes_count K H - 1)).foldl
        (fun f i => upd f i ((i - 1) / K)) (fun _ => 0) }

/-- Embeds the `no_contention_handling_snzi` constructor including its
argument validation: `K < 2` throws `std::invalid_argument`. -/
def no_contention_handling_snzi_mk (K H T : Nat) : Except String SnziRep :=
  if K < 2 then
    Except.error ("K parameter in snzi constructor must be >= 2")
  else Except.ok (mkTree K H T)

/-- Embeds the `semi_contention_handling_snzi` constructor's validation. -/
def semi_contention_handling_snzi_mk (K H T : Nat) : Except String SnziRep :=
  if K < 2 then
    Except.error ("K parameter in snzi constructor must be >= 2")
  else Except.ok (mkTree K H T)

/-- Embeds the `full_contention_handling_snzi` constructor's validation. -/
def full_contention_handling_snzi_mk (K H T : Nat) : Except String SnziRep :=
  if K < 2 then
    Except.error ("K parameter in snzi constructor must be >= 2")
  else Except.ok (mkTree K H T)

/-! Basic facts about the helpers. -/

theorem U64_eq : U64 = 2 ^ 64 := rfl

theorem U64_num : U64 = 18446744073709551616 := by norm_num [U64]

theorem one_lt_U64 : 1 < U64 := by norm_num [U64_num]

theorem upd_same {α : Type} (f : Nat → α) (i : Nat) (v : α) : upd f i v i = v := by
  simp [upd]

theorem upd_other {α : Type} {f : Nat → α} {i j : Nat} {v : α} (h : j ≠ i) :
    upd f i v j = f j := by
  simp [upd, h]

theorem upd_upd {α : Type} (f : Nat → α) (i : Nat) (a b : α) :
    upd (upd f i a) i b = upd f i b := by
  funext j
  by_cases h : j = i <;> simp [upd, h]

theorem upd_self {α : Type} {f : Nat → α} {i : Nat} {v : α} (h : f i = v) :
    upd f i v = f := by
  funext j
  by_cases hj : j = i <;> simp [upd, hj, h]

theorem ctrInc_eq {x : Nat} (h : x + 1 < U64) : ctrInc x = x + 1 :=
  Nat.mod_eq_of_lt h

theorem ctrDec_ctrInc {x : Nat} (h : x < U64) : ctrDec (ctrInc x) = x := by
  have hU := one_lt_U64
  have harg : x + 1 + (U64 - 1) = x + U64 := by omega
  calc ((x + 1) % U64 + (U64 - 1)) % U64
      = (x + 1 + (U64 - 1)) % U64 := Nat.mod_add_mod _ _ _
    _ = (x + U64) % U64 := by rw [harg]
    _ = x % U64 := Nat.add_mod_right x U64
    _ = x := Nat.mod_eq_of_lt h

theorem ctrDec_eq {x : Nat} (h1 : 1 ≤ x) (h2 : x < U64) : ctrDec x = x - 1 := by
  have hU := one_lt_U64
  have harg : x + (U64 - 1) = (x - 1) + U64 := by omega
  unfold ctrDec
  rw [harg, Nat.add_mod_right]
  exact Nat.mod_eq_of_lt (by omega)

theorem ctrInc_zero : ctrInc 0 = 1 := by
  unfold ctrInc
  exact Nat.mod_eq_of_lt one_lt_U64

theorem ctrDec_one : ctrDec 1 = 0 := by
  unfold ctrDec
  have hU := one_lt_U64
  have harg : 1 + (U64 - 1) = U64 := by omega
  rw [harg, Nat.mod_self]

/-! Tree-shape arithmetic facts. -/

theorem pow_int_mod (b : Nat) : ∀ e, pow_int b e = b ^ e % U64 := by
  intro e
  induction e with
  | zero =>
    show 1 = 1 % U64
    rw [Nat.mod_eq_of_lt one_lt_U64]
  | succ e ih =>
    show pow_int b e * b % U64 = b ^ (e + 1) % U64
    rw [ih, Nat.mod_mul_mod, Nat.pow_succ]

theorem sub64_eq_of_le {x y : Nat} (hy : y ≤ x) (hx : x < U64) :
    sub64 x y = x - y := by
  unfold sub64
  have hyU : y % U64 = y := Nat.mod_eq_of_lt (lt_of_le_of_lt hy hx)
  rw [hyU]
  have hU := one_lt_U64
  have harg : x + (U64 - y) = (x - y) + U64 := by omega
  rw [harg, Nat.add_mod_right]
  exact Nat.mod_eq_of_lt (by omega)

theorem pow_lt_U64_of_succ {K H : Nat} (hK : 2 ≤ K) (hb : K ^ (H + 1) ≤ U64) :
    K ^ H < U64 := by
  have h2 : K ^ H * 2 ≤ K ^ (H + 1) := by
    rw [Nat.pow_succ]
    exact Nat.mul_le_mul_left _ hK
  have hU := one_lt_U64
  omega

theorem leaves_count_eq {K H : Nat} (hK : 2 ≤ K) (hb : K ^ (H + 1) ≤ U64) :
    leaves_count K H = K ^ H := by
  unfold leaves_count
  rw [pow_int_mod]
  exact Nat.mod_eq_of_lt (pow_lt_U64_of_succ hK hb)

theorem nodes_count_eq {K H : Nat} (hK : 2 ≤ K) (hb : K ^ (H + 1) ≤ U64) :
    nodes_count K H = (K ^ (H + 1) - 1) / (K - 1) := by
  unfold nodes_count
  have hKpos : 0 < K := by omega
  have hp1 : 1 ≤ K ^ (H + 1) := pow_pos hKpos (H + 1)
  suffices h : sub64 (pow_int K (H + 1)) 1 = K ^ (H + 1) - 1 by rw [h]
  rw [pow_int_mod]
  rcases Nat.lt_or_ge (K ^ (H + 1)) U64 with hlt | hge
  · rw [Nat.mod_eq_of_lt hlt]
    exact sub64_eq_of_le hp1 hlt
  · have heq : K ^ (H + 1) = U64 := le_antisymm hb hge
    rw [heq, Nat.mod_self]
    unfold sub64
    have hU := one_lt_U64
    have h1 : (1 : Nat) % U64 = 1 := Nat.mod_eq_of_lt one_lt_U64
    rw [h1, Nat.zero_add]
    exact Nat.mod_eq_of_lt (by omega)

theorem geomS_mul (K n : Nat) : geomS K n * (K - 1) = K ^ n - 1 := by
  induction n with
  | zero => simp [geomS]
  | succ n ih =>
    rcases Nat.eq_zero_or_pos K with hK | hK
    · subst hK
      simp [geomS]
    · have hp : 1 ≤ K ^ n := pow_pos hK n
      obtain ⟨m, hm⟩ := Nat.exists_eq_add_of_le hp
      have step : geomS K (n + 1) * (K - 1) = (K - 1) + K * (geomS K n * (K - 1)) := by
        show (1 + K * geomS K n) * (K - 1) = (K - 1) + K * (geomS K n * (K - 1))
        ring
      have hpow : K ^ (n + 1) = (1 + m) * K := by rw [Nat.pow_succ, hm]
      rw [step, ih, hpow, hm]
      have h1 : K * (1 + m - 1) = K * m := by
        congr 1
        omega
      have h2 : (1 + m) * K = K + K * m := by ring
      rw [h1, h2]
      omega

theorem geomS_succ_pow (K n : Nat) : geomS K (n + 1) = geomS K n + K ^ n := by
  induction n with
  | zero => simp [geomS]
  | succ n ih =>
    calc geomS K (n + 2) = 1 + K * geomS K (n + 1) := rfl
      _ = 1 + K * (geomS K n + K ^ n) := by rw [ih]
      _ = (1 + K * geomS K n) + K ^ n * K := by ring
      _ = geomS K (n + 1) + K ^ (n + 1) := by rw [Nat.pow_succ]; simp [geomS]

theorem nodes_count_eq_geomS {K H : Nat} (hK : 2 ≤ K) (hb : K ^ (H + 1) ≤ U64) :
    nodes_count K H = geomS K (H + 1) := by
  rw [nodes_count_eq hK hb]
  have hmul := geomS_mul K (H + 1)
  have hpos : 0 < K - 1 := by omega
  exact Nat.div_eq_of_eq_mul_left hpos hmul.symm

theorem leaves_le_nodes {K H : Nat} (hK : 2 ≤ K) (hb : K ^ (H + 1) ≤ U64) :
    leaves_count K H ≤ nodes_count K H := by
  rw [nodes_count_eq_geomS hK hb, geomS_succ_pow, leaves_count_eq hK hb]
  omega

theorem leaves_pos {K H : Nat} (hK : 2 ≤ K) (hb : K ^ (H + 1) ≤ U64) :
    1 ≤ leaves_count K H := by
  rw [leaves_count_eq hK hb]
  have hKpos : 0 < K := by omega
  exact pow_pos hKpos H

theorem nodes_pos {K H : Nat} (hK : 2 ≤ K) (hb : K ^ (H + 1) ≤ U64) :
    1 ≤ nodes_count K H :=
  le_trans (leaves_pos hK hb) (leaves_le_nodes hK hb)

theorem nodes_lt_U64 {K H : Nat} (hK : 2 ≤ K) (hb : K ^ (H + 1) ≤ U64) :
    nodes_count K H < U64 := by
  rw [nodes_count_eq hK hb]
  have hd : (K ^ (H + 1) - 1) / (K - 1) ≤ K ^ (H + 1) - 1 := Nat.div_le_self _ _
  have hKpos : 0 < K := by omega
  have hp1 : 1 ≤ K ^ (H + 1) := pow_pos hKpos (H + 1)
  have hU := one_lt_U64
  omega

theorem tpl_of_pos (K H T : Nat) : 1 ≤ tpl_of K H T := by
  show 1 ≤ if ceilFlDiv (roundDouble T) (roundDouble (leaves_count K H)) % U64 = 0
    then 1 else ceilFlDiv (roundDouble T) (roundDouble (leaves_count K H)) % U64
  by_cases hc : ceilFlDiv (roundDouble T) (roundDouble (leaves_count K H)) % U64 = 0
  · rw [if_pos hc]
  · rw [if_neg hc]
    exact Nat.pos_of_ne_zero hc

theorem get_leaf_eq {K H : Nat} (hK : 2 ≤ K) (hb : K ^ (H + 1) ≤ U64)
    (T tid : Nat) :
    get_leaf_for_thread K H T tid =
      nodes_count K H - leaves_count K H +
        ((tid / tpl_of K H T) % leaves_count K H) := by
  unfold get_leaf_for_thread
  have hL1 : 1 ≤ leaves_count K H := leaves_pos hK hb
  have hLN : leaves_count K H ≤ nodes_count K H := leaves_le_nodes hK hb
  have hNU : nodes_count K H < U64 := nodes_lt_U64 hK hb
  have hmod : (tid / tpl_of K H T) % leaves_count K H < leaves_count K H :=
    Nat.mod_lt _ (by omega)
  rw [sub64_eq_of_le hLN hNU]
  exact Nat.mod_eq_of_lt (by omega)

theorem leaf_lt_nodes {K H : Nat} (hK : 2 ≤ K) (hb : K ^ (H + 1) ≤ U64)
    (T tid : Nat) :
    get_leaf_for_thread K H T tid < nodes_count K H := by
  rw [get_leaf_eq hK hb]
  have hL1 : 1 ≤ leaves_count K H := leaves_pos hK hb
  have hLN : leaves_count K H ≤ nodes_count K H := leaves_le_nodes hK hb
  have hmod : (tid / tpl_of K H T) % leaves_count K H < leaves_count K H :=
    Nat.mod_lt _ (by omega)
  omega

theorem leaf_ge {K H : Nat} (hK : 2 ≤ K) (hb : K ^ (H + 1) ≤ U64) (T tid : Nat) :
    nodes_count K H - leaves_count K H ≤ get_leaf_for_thread K H T tid := by
  rw [get_leaf_eq hK hb]
  omega

theorem parent_level {K : Nat} (hK : 1 ≤ K) {d i : Nat}
    (h1 : geomS K (d + 1) ≤ i) (h2 : i < geomS K (d + 2)) :
    geomS K d ≤ parent K i ∧ parent K i < geomS K (d + 1) := by
  have e1 : geomS K (d + 1) = 1 + K * geomS K d := rfl
  have e2 : geomS K (d + 2) = 1 + K * geomS K (d + 1) := rfl
  unfold parent
  constructor
  · rw [Nat.le_div_iff_mul_le (by omega : 0 < K), Nat.mul_comm (geomS K d) K]
    omega
  · rw [Nat.div_lt_iff_lt_mul (by omega : 0 < K), Nat.mul_comm (geomS K (d + 1)) K]
    omega

theorem parent_iter_root {K : Nat} (hK : 1 ≤ K) :
    ∀ H ℓ, geomS K H ≤ ℓ → ℓ < geomS K (H + 1) → (parent K)^[H] ℓ = 0 := by
  intro H
  induction H with
  | zero =>
    intro ℓ h1 h2
    simp only [geomS] at h1 h2
    simp only [Function.iterate_zero, id]
    omega
  | succ H ih =>
    intro ℓ h1 h2
    rw [Function.iterate_succ_apply]
    obtain ⟨hlo, hhi⟩ := parent_level hK h1 h2
    exact ih (parent K ℓ) hlo hhi

/-! Branch equations for the no-contention node operations. -/

theorem ncNodeArrive_eq0 (K : Nat) {i : Nat} (s : NCState) (h0 : i = 0) :
    ncNodeArrive K s i = s := by
  rw [ncNodeArrive, dif_pos h0]

theorem ncNodeArrive_eq1 (K : Nat) {i : Nat} (s : NCState) (h0 : i ≠ 0)
    (hx : s.X i ≠ 0) :
    ncNodeArrive K s i = { s with X := upd s.X i (ctrInc (s.X i)) } := by
  rw [ncNodeArrive, dif_neg h0, if_neg hx]

theorem ncNodeArrive_eq2 (K : Nat) {i : Nat} (s : NCState) (h0 : i ≠ 0)
    (hx : s.X i = 0) (hp : (i - 1) / K = 0) :
    ncNodeArrive K s i = { ncRootArrive s with X := upd s.X i (ctrInc (s.X i)) } := by
  rw [ncNodeArrive, dif_neg h0, if_pos hx, if_pos hp]
  rfl

theorem ncNodeArrive_eq3 (K : Nat) {i : Nat} (s : NCState) (h0 : i ≠ 0)
    (hx : s.X i = 0) (hp : (i - 1) / K ≠ 0) :
    ncNodeArrive K s i =
      { ncNodeArrive K s ((i - 1) / K) with
        X := upd (ncNodeArrive K s ((i - 1) / K)).X i (ctrInc (s.X i)) } := by
  rw [ncNodeArrive, dif_neg h0, if_pos hx, if_neg hp]

theorem ncNodeDepart_eq0 (K : Nat) {i : Nat} (s : NCState) (h0 : i = 0) :
    ncNodeDepart K s i = s := by
  rw [ncNodeDepart, dif_pos h0]

theorem ncNodeDepart_eq1 (K : Nat) {i : Nat} (s : NCState) (h0 : i ≠ 0)
    (hx : s.X i ≠ 1) :
    ncNodeDepart K s i = { s with X := upd s.X i (ctrDec (s.X i)) } := by
  rw [ncNodeDepart, dif_neg h0, if_neg hx]

theorem ncNodeDepart_eq2 (K : Nat) {i : Nat} (s : NCState) (h0 : i ≠ 0)
    (hx : s.X i = 1) (hp : (i - 1) / K = 0) :
    ncNodeDepart K s i = ncRootDepart { s with X := upd s.X i (ctrDec (s.X i)) } := by
  rw [ncNodeDepart, dif_neg h0, if_pos hx, if_pos hp]

theorem ncNodeDepart_eq3 (K : Nat) {i : Nat} (s : NCState) (h0 : i ≠ 0)
    (hx : s.X i = 1) (hp : (i - 1) / K ≠ 0) :
    ncNodeDepart K s i =
      ncNodeDepart K { s with X := upd s.X i (ctrDec (s.X i)) } ((i - 1) / K) := by
  rw [ncNodeDepart, dif_neg h0, if_pos hx, if_neg hp]

/-! Sequential behaviour of the no-contention tree. -/

theorem ncNodeArrive_X_high (K : Nat) :
    ∀ i s j, i < j → (ncNodeArrive K s i).X j = s.X j := by
  intro i
  induction i using Nat.strong_induction_on with
  | _ i IH =>
    intro s j hij
    have hji : j ≠ i := by omega
    by_cases h0 : i = 0
    · rw [ncNodeArrive_eq0 K s h0]
    · have hdec : (i - 1) / K < i :=
        Nat.lt_of_le_of_lt (Nat.div_le_self _ _) (by omega)
      by_cases hx : s.X i = 0
      · by_cases hp : (i - 1) / K = 0
        · rw [ncNodeArrive_eq2 K s h0 hx hp]
          show upd s.X i (ctrInc (s.X i)) j = s.X j
          exact upd_other hji
        · rw [ncNodeArrive_eq3 K s h0 hx hp]
          show upd (ncNodeArrive K s ((i - 1) / K)).X i (ctrInc (s.X i)) j = s.X j
          rw [upd_other hji]
          exact IH _ hdec s j (by omega)
      · rw [ncNodeArrive_eq1 K s h0 hx]
        exact upd_other hji

theorem ncNodeArrive_bounds (K : Nat) :
    ∀ i s c, s.rootX ≤ c → (∀ j, s.X j ≤ c) → c + 1 < U64 →
      (ncNodeArrive K s i).rootX ≤ c + 1 ∧ ∀ j, (ncNodeArrive K s i).X j ≤ c + 1 := by
  intro i
  induction i using Nat.strong_induction_on with
  | _ i IH =>
    intro s c hr hX hc
    have hinc : ctrInc (s.X i) ≤ c + 1 := by
      have := hX i
      rw [ctrInc_eq (by omega)]
      omega
    by_cases h0 : i = 0
    · rw [ncNodeArrive_eq0 K s h0]
      exact ⟨by omega, fun j => le_trans (hX j) (by omega)⟩
    · have hdec : (i - 1) / K < i :=
        Nat.lt_of_le_of_lt (Nat.div_le_self _ _) (by omega)
      by_cases hx : s.X i = 0
      · by_cases hp : (i - 1) / K = 0
        · rw [ncNodeArrive_eq2 K s h0 hx hp]
          refine ⟨?_, ?_⟩
          · show ctrInc s.rootX ≤ c + 1
            rw [ctrInc_eq (by omega)]
            omega
          · intro j
            show upd s.X i (ctrInc (s.X i)) j ≤ c + 1
            by_cases hj : j = i
            · subst hj
              rw [upd_same]
              exact hinc
            · rw [upd_other hj]
              exact le_trans (hX j) (by omega)
        · rw [ncNodeArrive_eq3 K s h0 hx hp]
          obtain ⟨ihr, ihX⟩ := IH _ hdec s c hr hX hc
          refine ⟨ihr, ?_⟩
          intro j
          show upd (ncNodeArrive K s ((i - 1) / K)).X i (ctrInc (s.X i)) j ≤ c + 1
          by_cases hj : j = i
          · subst hj
            rw [upd_same]
            exact hinc
          · rw [upd_other hj]
            exact ihX j
      · rw [ncNodeArrive_eq1 K s h0 hx]
        refine ⟨show s.rootX ≤ c + 1 by omega, ?_⟩
        intro j
        show upd s.X i (ctrInc (s.X i)) j ≤ c + 1
        by_cases hj : j = i
        · subst hj
          rw [upd_same]
          exact hinc
        · rw [upd_other hj]
          exact le_trans (hX j) (by omega)

theorem ncNodeArrive_rootX_fresh (K : Nat) :
    ∀ i s, i ≠ 0 → (∀ j, s.X j = 0) → (ncNodeArrive K s i).rootX = ctrInc s.rootX := by
  intro i
  induction i using Nat.strong_induction_on with
  | _ i IH =>
    intro s h0 hz
    have hx : s.X i = 0 := hz i
    have hdec : (i - 1) / K < i :=
      Nat.lt_of_le_of_lt (Nat.div_le_self _ _) (by omega)
    by_cases hp : (i - 1) / K = 0
    · rw [ncNodeArrive_eq2 K s h0 hx hp]
      rfl
    · rw [ncNodeArrive_eq3 K s h0 hx hp]
      show (ncNodeArrive K s ((i - 1) / K)).rootX = ctrInc s.rootX
      exact IH _ hdec s hp hz

theorem ncNodeArrive_rootX_pos (K : Nat) :
    ∀ i s c, s.rootX ≤ c → c + 1 < U64 → 1 ≤ s.rootX →
      1 ≤ (ncNodeArrive K s i).rootX := by
  intro i
  induction i using Nat.strong_induction_on with
  | _ i IH =>
    intro s c hr hc h1
    by_cases h0 : i = 0
    · rw [ncNodeArrive_eq0 K s h0]
      exact h1
    · have hdec : (i - 1) / K < i :=
        Nat.lt_of_le_of_lt (Nat.div_le_self _ _) (by omega)
      by_cases hx : s.X i = 0
      · by_cases hp : (i - 1) / K = 0
        · rw [ncNodeArrive_eq2 K s h0 hx hp]
          show 1 ≤ ctrInc s.rootX
          rw [ctrInc_eq (by omega)]
          omega
        · rw [ncNodeArrive_eq3 K s h0 hx hp]
          show 1 ≤ (ncNodeArrive K s ((i - 1) / K)).rootX
          exact IH _ hdec s c hr hc h1
      · rw [ncNodeArrive_eq1 K s h0 hx]
        exact h1

theorem ncNode_cancel (K : Nat) :
    ∀ i s, (∀ j, s.X j + 1 < U64) → s.rootX < U64 →
      ncNodeDepart K (ncNodeArrive K s i) i = s := by
  intro i
  induction i using Nat.strong_induction_on with
  | _ i IH =>
    intro s hX hr
    by_cases h0 : i = 0
    · rw [ncNodeArrive_eq0 K s h0, ncNodeDepart_eq0 K s h0]
    · have hdec : (i - 1) / K < i :=
        Nat.lt_of_le_of_lt (Nat.div_le_self _ _) (by omega)
      by_cases hx : s.X i = 0
      · by_cases hp : (i - 1) / K = 0
        · rw [ncNodeArrive_eq2 K s h0 hx hp, hx, ctrInc_zero]
          rw [ncNodeDepart_eq2 K _ h0 (show upd s.X i 1 i = 1 from upd_same _ _ _) hp]
          show ncRootDepart
              { ncRootArrive s with
                X := upd (upd s.X i 1) i (ctrDec (upd s.X i 1 i)) } = s
          rw [upd_same, ctrDec_one, upd_upd, upd_self hx]
          show ({ s with rootX := ctrDec (ctrInc s.rootX) } : NCState) = s
          rw [ctrDec_ctrInc hr]
        · rw [ncNodeArrive_eq3 K s h0 hx hp, hx, ctrInc_zero]
          have hframe : (ncNodeArrive K s ((i - 1) / K)).X i = s.X i :=
            ncNodeArrive_X_high K _ s i hdec
          rw [ncNodeDepart_eq3 K _ h0
                (show upd (ncNodeArrive K s ((i - 1) / K)).X i 1 i = 1 from upd_same _ _ _) hp]
          show ncNodeDepart K
              { ncNodeArrive K s ((i - 1) / K) with
                X := upd (upd (ncNodeArrive K s ((i - 1) / K)).X i 1) i
                      (ctrDec (upd (ncNodeArrive K s ((i - 1) / K)).X i 1 i)) }
              ((i - 1) / K) = s
          rw [upd_same, ctrDec_one, upd_upd, upd_self (hframe.trans hx)]
          show ncNodeDepart K (ncNodeArrive K s ((i - 1) / K)) ((i - 1) / K) = s
          exact IH _ hdec s hX hr
      · rw [ncNodeArrive_eq1 K s h0 hx, ctrInc_eq (hX i)]
        have hne1 : upd s.X i (s.X i + 1) i ≠ 1 := by
          rw [upd_same]
          omega
        rw [ncNodeDepart_eq1 K _ h0 hne1]
        show ({ s with
            X := upd (upd s.X i (s.X i + 1)) i (ctrDec (upd s.X i (s.X i + 1) i)) } : NCState) = s
        rw [upd_same, ctrDec_eq (by omega) (hX i), Nat.add_sub_cancel, upd_upd,
          upd_self rfl]

/-! Facade-level lemmas for the no-contention variant. -/

theorem ncQuery_true_of_pos {s : NCState} (h : 1 ≤ s.rootX) : ncQuery s = true := by
  simp only [ncQuery, bne_iff_ne, ne_eq]
  omega

theorem ncArrive_bounds (K H T tid : Nat) (s : NCState) (c : Nat)
    (hr : s.rootX ≤ c) (hX : ∀ j, s.X j ≤ c) (hc : c + 1 < U64) :
    (ncArrive K H T tid s).rootX ≤ c + 1 ∧ ∀ j, (ncArrive K H T tid s).X j ≤ c + 1 := by
  unfold ncArrive
  by_cases hleaf : get_leaf_for_thread K H T tid = 0
  · rw [if_pos hleaf]
    refine ⟨?_, ?_⟩
    · show ctrInc s.rootX ≤ c + 1
      rw [ctrInc_eq (by omega)]
      omega
    · intro j
      show s.X j ≤ c + 1
      exact le_trans (hX j) (by omega)
  · rw [if_neg hleaf]
    exact ncNodeArrive_bounds K _ s c hr hX hc

theorem ncArrive_cancel (K H T tid : Nat) (s : NCState)
    (hX : ∀ j, s.X j + 1 < U64) (hr : s.rootX < U64) :
    ncDepart K H T tid (ncArrive K H T tid s) = s := by
  unfold ncArrive ncDepart
  by_cases hleaf : get_leaf_for_thread K H T tid = 0
  · rw [if_pos hleaf, if_pos hleaf]
    show ({ s with rootX := ctrDec (ctrInc s.rootX) } : NCState) = s
    rw [ctrDec_ctrInc hr]
  · rw [if_neg hleaf, if_neg hleaf]
    exact ncNode_cancel K _ s hX hr

theorem ncArrive_fresh_rootX (K H T tid : Nat) :
    (ncArrive K H T tid freshNC).rootX = 1 := by
  unfold ncArrive
  by_cases hleaf : get_leaf_for_thread K H T tid = 0
  · rw [if_pos hleaf]
    exact ctrInc_zero
  · rw [if_neg hleaf]
    rw [ncNodeArrive_rootX_fresh K _ freshNC hleaf (fun j => rfl)]
    exact ctrInc_zero

theorem ncArrive_rootX_pos (K H T tid : Nat) (s : NCState) (c : Nat)
    (hr : s.rootX ≤ c) (hc : c + 1 < U64) (h1 : 1 ≤ s.rootX) :
    1 ≤ (ncArrive K H T tid s).rootX := by
  unfold ncArrive
  by_cases hleaf : get_leaf_for_thread K H T tid = 0
  · rw [if_pos hleaf]
    show 1 ≤ ctrInc s.rootX
    rw [ctrInc_eq (by omega)]
    omega
  · rw [if_neg hleaf]
    exact ncNodeArrive_rootX_pos K _ s c hr hc h1

theorem ncIter_bounds (K H T tid : Nat) :
    ∀ k, k < U64 →
      ((ncArrive K H T tid)^[k] freshNC).rootX ≤ k ∧
      ∀ j, ((ncArrive K H T tid)^[k] freshNC).X j ≤ k := by
  intro k
  induction k with
  | zero =>
    intro _
    rw [Function.iterate_zero_apply]
    exact ⟨Nat.le_refl 0, fun _ => Nat.le_refl 0⟩
  | succ k ih =>
    intro hk
    rw [Function.iterate_succ_apply']
    obtain ⟨ihr, ihX⟩ := ih (by omega)
    exact ncArrive_bounds K H T tid _ k ihr ihX hk

theorem ncIter_rootX_pos (K H T tid : Nat) :
    ∀ k, 1 ≤ k → k < U64 → 1 ≤ ((ncArrive K H T tid)^[k] freshNC).rootX := by
  intro k
  induction k with
  | zero => intro h _; exact absurd h (by omega)
  | succ k ih =>
    intro _ hk
    rw [Function.iterate_succ_apply']
    by_cases hk0 : k = 0
    · subst hk0
      rw [Function.iterate_zero_apply, ncArrive_fresh_rootX]
    · obtain ⟨ihr, _⟩ := ncIter_bounds K H T tid k (by omega)
      exact ncArrive_rootX_pos K H T tid _ k ihr hk (ih (by omega) (by omega))

theorem ncIter_cancel (K H T tid : Nat) :
    ∀ k, k < U64 →
      (ncDepart K H T tid)^[k] ((ncArrive K H T tid)^[k] freshNC) = freshNC := by
  intro k
  induction k with
  | zero => intro _; rfl
  | succ k ih =>
    intro hk
    rw [Function.iterate_succ_apply' (ncArrive K H T tid),
      Function.iterate_succ_apply (ncDepart K H T tid)]
    obtain ⟨ihr, ihX⟩ := ncIter_bounds K H T tid k (by omega)
    rw [ncArrive_cancel K H T tid _ (fun j => by have := ihX j; omega) (by omega)]
    exact ih (by omega)

/-! The semi-contention tree simulates the no-contention tree once the
announce flags are forgotten: the counters evolve identically. -/

theorem proj_scNodeArrive (K : Nat) :
    ∀ i s, projNC (scNodeArrive K s i) = ncNodeArrive K (projNC s) i := by
  intro i
  induction i using Nat.strong_induction_on with
  | _ i IH =>
    intro s
    by_cases h0 : i = 0
    · rw [scNodeArrive, dif_pos h0, ncNodeArrive_eq0 K _ h0]
    · have hdec : (i - 1) / K < i :=
        Nat.lt_of_le_of_lt (Nat.div_le_self _ _) (by omega)
      by_cases hx : s.X i = 0
      · by_cases hp : (i - 1) / K = 0
        · rw [scNodeArrive, dif_neg h0, if_pos hx, if_pos hp,
            ncNodeArrive_eq2 K (projNC s) h0 hx hp]
          rfl
        · rw [scNodeArrive, dif_neg h0, if_pos hx, if_neg hp,
            ncNodeArrive_eq3 K (projNC s) h0 hx hp]
          have hIH : projNC (scNodeArrive K { s with announce := upd s.announce i true }
                ((i - 1) / K)) = ncNodeArrive K (projNC s) ((i - 1) / K) :=
            IH _ hdec { s with announce := upd s.announce i true }
          rw [← hIH]
          rfl
      · rw [scNodeArrive, dif_neg h0, if_neg hx,
          ncNodeArrive_eq1 K (projNC s) h0 hx]
        rfl

theorem proj_scNodeDepart (K : Nat) :
    ∀ i s, projNC (scNodeDepart K s i) = ncNodeDepart K (projNC s) i := by
  intro i
  induction i using Nat.strong_induction_on with
  | _ i IH =>
    intro s
    by_cases h0 : i = 0
    · rw [scNodeDepart, dif_pos h0, ncNodeDepart_eq0 K _ h0]
    · have hdec : (i - 1) / K < i :=
        Nat.lt_of_le_of_lt (Nat.div_le_self _ _) (by omega)
      by_cases hx : s.X i = 1
      · by_cases hp : (i - 1) / K = 0
        · rw [scNodeDepart, dif_neg h0, if_pos hx, if_pos hp,
            ncNodeDepart_eq2 K (projNC s) h0 hx hp]
          rfl
        · rw [scNodeDepart, dif_neg h0, if_pos hx, if_neg hp,
            ncNodeDepart_eq3 K (projNC s) h0 hx hp]
          exact IH _ hdec
            { s with announce := upd s.announce i false, X := upd s.X i (ctrDec (s.X i)) }
      · rw [scNodeDepart, dif_neg h0, if_neg hx,
          ncNodeDepart_eq1 K (projNC s) h0 hx]
        rfl

theorem proj_scArrive (K H T tid : Nat) (s : SCState) :
    projNC (scArrive K H T tid s) = ncArrive K H T tid (projNC s) := by
  unfold scArrive ncArrive
  by_cases hleaf : get_leaf_for_thread K H T tid = 0
  · rw [if_pos hleaf, if_pos hleaf]
    rfl
  · rw [if_neg hleaf, if_neg hleaf]
    exact proj_scNodeArrive K _ s

theorem proj_scDepart (K H T tid : Nat) (s : SCState) :
    projNC (scDepart K H T tid s) = ncDepart K H T tid (projNC s) := by
  unfold scDepart ncDepart
  by_cases hleaf : get_leaf_for_thread K H T tid = 0
  · rw [if_pos hleaf, if_pos hleaf]
    rfl
  · rw [if_neg hleaf, if_neg hleaf]
    exact proj_scNodeDepart K _ s

theorem proj_scArrive_iter (K H T tid : Nat) :
    ∀ k s, projNC ((scArrive K H T tid)^[k] s) = (ncArrive K H T tid)^[k] (projNC s) := by
  intro k
  induction k with
  | zero => intro s; rfl
  | succ k ih =>
    intro s
    rw [Function.iterate_succ_apply', Function.iterate_succ_apply',
      proj_scArrive, ih]

theorem proj_scDepart_iter (K H T tid : Nat) :
    ∀ k s, projNC ((scDepart K H T tid)^[k] s) = (ncDepart K H T tid)^[k] (projNC s) := by
  intro k
  induction k with
  | zero => intro s; rfl
  | succ k ih =>
    intro s
    rw [Function.iterate_succ_apply', Function.iterate_succ_apply',
      proj_scDepart, ih]

theorem scQuery_eq_proj (s : SCState) : scQuery s = ncQuery (projNC s) := rfl

/-! Direct-path lemmas for the full-contention variant. -/

theorem fcArriveSeq_step (K H T tid : Nat) (s : SCState) :
    fcArriveSeq K H T tid (s, freshStatus) =
      ({ s with rootX := (s.rootX + 1) % U64 }, freshStatus) := rfl

theorem fcDepartSeq_step (K H T tid : Nat) (s : SCState) :
    fcDepartSeq K H T tid (s, freshStatus) =
      ({ s with rootX := (s.rootX + (U64 - 1)) % U64 }, freshStatus) := rfl

theorem fcArriveSeq_iter (K H T tid : Nat) :
    ∀ k, (fcArriveSeq K H T tid)^[k] freshFC =
      ({ freshSC with rootX := k % U64 }, freshStatus) := by
  intro k
  induction k with
  | zero =>
    rw [Function.iterate_zero_apply, Nat.zero_mod]
    rfl
  | succ k ih =>
    rw [Function.iterate_succ_apply', ih, fcArriveSeq_step]
    show ({ freshSC with rootX := (k % U64 + 1) % U64 }, freshStatus) = _
    rw [Nat.mod_add_mod]

theorem fcDepartSeq_iter (K H T tid : Nat) :
    ∀ j k, j ≤ k → k < U64 →
      (fcDepartSeq K H T tid)^[j] ({ freshSC with rootX := k % U64 }, freshStatus) =
        ({ freshSC with rootX := (k - j) % U64 }, freshStatus) := by
  intro j
  induction j with
  | zero =>
    intro k _ _
    rw [Function.iterate_zero_apply, Nat.sub_zero]
  | succ j ih =>
    intro k hjk hk
    rw [Function.iterate_succ_apply, fcDepartSeq_step]
    have hU := one_lt_U64
    have hstep : (k % U64 + (U64 - 1)) % U64 = (k - 1) % U64 := by
      rw [Nat.mod_add_mod]
      have harg : k + (U64 - 1) = (k - 1) + U64 := by omega
      rw [harg, Nat.add_mod_right]
    show (fcDepartSeq K H T tid)^[j]
        ({ freshSC with rootX := (k % U64 + (U64 - 1)) % U64 }, freshStatus) = _
    rw [hstep, ih (k - 1) (by omega) (by omega)]
    have : k - 1 - j = k - (j + 1) := by omega
    rw [this]

/-! The instrumented operations compute the same states as the plain ones. -/

theorem ncNodeArriveAcc_fst (K : Nat) :
    ∀ i s, (ncNodeArriveAcc K s i).1 = ncNodeArrive K s i := by
  intro i
  induction i using Nat.strong_induction_on with
  | _ i IH =>
    intro s
    by_cases h0 : i = 0
    · rw [ncNodeArriveAcc, dif_pos h0, ncNodeArrive_eq0 K s h0]
    · have hdec : (i - 1) / K < i :=
        Nat.lt_of_le_of_lt (Nat.div_le_self _ _) (by omega)
      by_cases hx : s.X i = 0
      · by_cases hp : (i - 1) / K = 0
        · rw [ncNodeArriveAcc, dif_neg h0, if_pos hx, if_pos hp]
          exact (ncNodeArrive_eq2 K s h0 hx hp).symm
        · rw [ncNodeArriveAcc, dif_neg h0, if_pos hx, if_neg hp]
          show ({ (ncNodeArriveAcc K s ((i - 1) / K)).1 with
              X := upd (ncNodeArriveAcc K s ((i - 1) / K)).1.X i (ctrInc (s.X i)) } :
            NCState) = ncNodeArrive K s i
          rw [IH _ hdec s]
          exact (ncNodeArrive_eq3 K s h0 hx hp).symm
      · rw [ncNodeArriveAcc, dif_neg h0, if_neg hx]
        exact (ncNodeArrive_eq1 K s h0 hx).symm

theorem ncNodeDepartAcc_fst (K : Nat) :
    ∀ i s, (ncNodeDepartAcc K s i).1 = ncNodeDepart K s i := by
  intro i
  induction i using Nat.strong_induction_on with
  | _ i IH =>
    intro s
    by_cases h0 : i = 0
    · rw [ncNodeDepartAcc, dif_pos h0, ncNodeDepart_eq0 K s h0]
    · have hdec : (i - 1) / K < i :=
        Nat.lt_of_le_of_lt (Nat.div_le_self _ _) (by omega)
      by_cases hx : s.X i = 1
      · by_cases hp : (i - 1) / K = 0
        · rw [ncNodeDepartAcc, dif_neg h0, if_pos hx, if_pos hp]
          exact (ncNodeDepart_eq2 K s h0 hx hp).symm
        · rw [ncNodeDepartAcc, dif_neg h0, if_pos hx, if_neg hp]
          show (ncNodeDepartAcc K { s with X := upd s.X i (ctrDec (s.X i)) }
              ((i - 1) / K)).1 = ncNodeDepart K s i
          rw [IH _ hdec]
          exact (ncNodeDepart_eq3 K s h0 hx hp).symm
      · rw [ncNodeDepartAcc, dif_neg h0, if_neg hx]
        exact (ncNodeDepart_eq1 K s h0 hx).symm

theorem ncArriveAcc_fst (K H T tid : Nat) (s : NCState) :
    (ncArriveAcc K H T tid s).1 = ncArrive K H T tid s := by
  unfold ncArriveAcc ncArrive
  by_cases hleaf : get_leaf_for_thread K H T tid = 0
  · rw [if_pos hleaf, if_pos hleaf]
  · rw [if_neg hleaf, if_neg hleaf]
    exact ncNodeArriveAcc_fst K _ s

theorem ncDepartAcc_fst (K H T tid : Nat) (s : NCState) :
    (ncDepartAcc K H T tid s).1 = ncDepart K H T tid s := by
  unfold ncDepartAcc ncDepart
  by_cases hleaf : get_leaf_for_thread K H T tid = 0
  · rw [if_pos hleaf, if_pos hleaf]
  · rw [if_neg hleaf, if_neg hleaf]
    exact ncNodeDepartAcc_fst K _ s

/-- Every `others` index accessed by a node `Arrive` chain started at a
node index in `[1, N)` also lies in `[1, N)`. -/
theorem ncNodeArriveAcc_range (K N : Nat) :
    ∀ i s, 1 ≤ i → i < N → ∀ j, j ∈ (ncNodeArriveAcc K s i).2 → 1 ≤ j ∧ j < N := by
  intro i
  induction i using Nat.strong_induction_on with
  | _ i IH =>
    intro s h1 h2 j hj
    have h0 : i ≠ 0 := by omega
    have hdec : (i - 1) / K < i :=
      Nat.lt_of_le_of_lt (Nat.div_le_self _ _) (by omega)
    by_cases hx : s.X i = 0
    · by_cases hp : (i - 1) / K = 0
      · rw [ncNodeArriveAcc, dif_neg h0, if_pos hx, if_pos hp] at hj
        have hj' : j ∈ [i] := hj
        rw [List.mem_singleton] at hj'
        omega
      · rw [ncNodeArriveAcc, dif_neg h0, if_pos hx, if_neg hp] at hj
        have hj' : j ∈ i :: (ncNodeArriveAcc K s ((i - 1) / K)).2 := hj
        rcases List.mem_cons.mp hj' with hji | hjrec
        · omega
        · exact IH _ hdec s (Nat.pos_of_ne_zero hp) (by omega) j hjrec
    · rw [ncNodeArriveAcc, dif_neg h0, if_neg hx] at hj
      have hj' : j ∈ [i] := hj
      rw [List.mem_singleton] at hj'
      omega

/-- Every `others` index accessed by a node `Depart` chain started at a
node index in `[1, N)` also lies in `[1, N)`. -/
theorem ncNodeDepartAcc_range (K N : Nat) :
    ∀ i s, 1 ≤ i → i < N → ∀ j, j ∈ (ncNodeDepartAcc K s i).2 → 1 ≤ j ∧ j < N := by
  intro i
  induction i using Nat.strong_induction_on with
  | _ i IH =>
    intro s h1 h2 j hj
    have h0 : i ≠ 0 := by omega
    have hdec : (i - 1) / K < i :=
      Nat.lt_of_le_of_lt (Nat.div_le_self _ _) (by omega)
    by_cases hx : s.X i = 1
    · by_cases hp : (i - 1) / K = 0
      · rw [ncNodeDepartAcc, dif_neg h0, if_pos hx, if_pos hp] at hj
        have hj' : j ∈ [i] := hj
        rw [List.mem_singleton] at hj'
        omega
      · rw [ncNodeDepartAcc, dif_neg h0, if_pos hx, if_neg hp] at hj
        have hj' : j ∈ i :: (ncNodeDepartAcc K
            { s with X := upd s.X i (ctrDec (s.X i)) } ((i - 1) / K)).2 := hj
        rcases List.mem_cons.mp hj' with hji | hjrec
        · omega
        · exact IH _ hdec _ (Nat.pos_of_ne_zero hp) (by omega) j hjrec
    · rw [ncNodeDepartAcc, dif_neg h0, if_neg hx] at hj
      have hj' : j ∈ [i] := hj
      rw [List.mem_singleton] at hj'
      omega

/-- Characterization of the parent-initialization loop of the constructor. -/
theorem foldl_parents (K : Nat) :
    ∀ n s f j, ((List.range' s n).foldl (fun f i => upd f i ((i - 1) / K)) f) j =
      if s ≤ j ∧ j < s + n then (j - 1) / K else f j := by
  intro n
  induction n with
  | zero =>
    intro s f j
    show f j = if s ≤ j ∧ j < s + 0 then (j - 1) / K else f j
    rw [if_neg (by omega)]
  | succ n ih =>
    intro s f j
    rw [List.range'_succ, List.foldl_cons, ih (s + 1) (upd f s ((s - 1) / K)) j]
    by_cases h1 : s + 1 ≤ j ∧ j < s + 1 + n
    · rw [if_pos h1, if_pos (by omega)]
    · rw [if_neg h1]
      by_cases h2 : j = s
      · subst h2
        rw [upd_same, if_pos (by omega)]
      · rw [upd_other h2, if_neg (by omega)]

/-! Backoff trace. -/

theorem nthBackoffState_eq : ∀ n, nthBackoffState n = ⟨2 ^ min n 5⟩ := by
  intro n
  induction n with
  | zero => rfl
  | succ n ih =>
    unfold nthBackoffState at ih ⊢
    rw [Function.iterate_succ_apply', ih]
    by_cases h : n < 5
    · have hmin : min n 5 = n := by omega
      have hmin2 : min (n + 1) 5 = n + 1 := by omega
      rw [hmin, hmin2]
      show (backoffStep ⟨2 ^ n⟩).2 = ⟨2 ^ (n + 1)⟩
      have hle : 2 ^ n ≤ MAX_TRIES := by
        have hpow : (2:Nat) ^ n ≤ 2 ^ 4 := Nat.pow_le_pow_right (by omega) (by omega)
        have h16 : (2:Nat) ^ 4 = 16 := by norm_num
        unfold MAX_TRIES
        omega
      unfold backoffStep
      rw [if_pos hle]
      show (⟨2 ^ n * 2⟩ : ExpBackoff) = ⟨2 ^ (n + 1)⟩
      rw [Nat.pow_succ]
    · have hmin : min n 5 = 5 := by omega
      have hmin2 : min (n + 1) 5 = 5 := by omega
      rw [hmin, hmin2]
      rfl

/-! Bit-level facts for the stamped counter. -/

namespace StampedCounter

theorem himask_eq : (0xFFFFFFFF00000000 : Nat) = (2 ^ 32 - 1) <<< 32 := by
  rw [Nat.shiftLeft_eq]
  norm_num

theorem lomask_eq : (0x00000000FFFFFFFF : Nat) = 2 ^ 32 - 1 := by norm_num

theorem extract_stamp_pack {s c : Nat} (hs : s < 2 ^ 32) (hc : c < 2 ^ 32) :
    extract_stamp (pack s c) = s := by
  apply Nat.eq_of_testBit_eq
  intro i
  simp only [extract_stamp, pack, himask_eq, Nat.testBit_shiftRight, Nat.testBit_land,
    Nat.testBit_shiftLeft, Nat.testBit_two_pow_sub_one, Nat.testBit_or]
  have e1 : 32 + i - 32 = i := by omega
  rw [e1]
  by_cases hi : i < 32
  · have hcbit : c.testBit (32 + i) = false :=
      Nat.testBit_lt_two_pow (lt_of_lt_of_le hc (Nat.pow_le_pow_right (by omega) (by omega)))
    simp [hi, hcbit]
  · have hsbit : s.testBit i = false :=
      Nat.testBit_lt_two_pow (lt_of_lt_of_le hs (Nat.pow_le_pow_right (by omega) (by omega)))
    simp [hi, hsbit]

theorem extract_counter_pack {s c : Nat} (hc : c < 2 ^ 32) :
    extract_counter (pack s c) = c := by
  apply Nat.eq_of_testBit_eq
  intro i
  simp only [extract_counter, pack, lomask_eq, Nat.testBit_land, Nat.testBit_shiftLeft,
    Nat.testBit_two_pow_sub_one, Nat.testBit_or]
  by_cases hi : i < 32
  · simp [hi, show ¬(32 ≤ i) by omega]
  · have hcbit : c.testBit i = false :=
      Nat.testBit_lt_two_pow (lt_of_lt_of_le hc (Nat.pow_le_pow_right (by omega) (by omega)))
    simp [hi, hcbit]

theorem pack_extract {v : Nat} (hv : v < 2 ^ 64) :
    pack (extract_stamp v) (extract_counter v) = v := by
  apply Nat.eq_of_testBit_eq
  intro i
  simp only [extract_counter, extract_stamp, pack, lomask_eq, himask_eq, Nat.testBit_land,
    Nat.testBit_shiftLeft, Nat.testBit_shiftRight, Nat.testBit_two_pow_sub_one,
    Nat.testBit_or]
  by_cases hi : i < 32
  · simp [hi, show ¬(32 ≤ i) by omega]
  · by_cases hi64 : i < 64
    · have e1 : 32 + (i - 32) = i := by omega
      simp [hi, show 32 ≤ i by omega, e1, show i - 32 < 32 by omega]
    · have hvbit : v.testBit i = false :=
        Nat.testBit_lt_two_pow (lt_of_lt_of_le hv (Nat.pow_le_pow_right (by omega) (by omega)))
      simp [hi, hvbit, show ¬(i - 32 < 32) by omega]

end StampedCounter

/-! Claim theorems. -/

/-- Claim C1 (amended): for every valid construction (K ≥ 2, H ≥ 0, T ≥ 1) of
any of the three variants and every tid in [0, T): Query() on a freshly
constructed tree returns false; after any sequence of k sequential
Arrive(tid) calls with 1 ≤ k < 2^64 Query() returns true; and after k
subsequent matched Depart(tid) calls Query() returns false again (for the
full variant, with a per-thread contention_status initialized all-false).
The upper bound k < 2^64 is forced by the 64-bit node counters: at
k = 2^64 the root counter wraps to zero (see the counterexample). -/
theorem claim_C1_seq_arrive_depart_query
    (K H T tid k : Nat) (hK : 2 ≤ K) (hT : 1 ≤ T) (htid : tid < T)
    (hk1 : 1 ≤ k) (hk2 : k < 2 ^ 64) :
    (ncQuery freshNC = false ∧
      ncQuery ((ncArrive K H T tid)^[k] freshNC) = true ∧
      ncQuery ((ncDepart K H T tid)^[k] ((ncArrive K H T tid)^[k] freshNC)) = false) ∧
    (scQuery freshSC = false ∧
      scQuery ((scArrive K H T tid)^[k] freshSC) = true ∧
      scQuery ((scDepart K H T tid)^[k] ((scArrive K H T tid)^[k] freshSC)) = false) ∧
    (fcQuery freshFC = false ∧
      fcQuery ((fcArriveSeq K H T tid)^[k] freshFC) = true ∧
      fcQuery ((fcDepartSeq K H T tid)^[k] ((fcArriveSeq K H T tid)^[k] freshFC)) = false) := by
  have hk2' : k < U64 := hk2
  refine ⟨⟨rfl, ?_, ?_⟩, ⟨rfl, ?_, ?_⟩, ⟨rfl, ?_, ?_⟩⟩
  · exact ncQuery_true_of_pos (ncIter_rootX_pos K H T tid k hk1 hk2')
  · rw [ncIter_cancel K H T tid k hk2']
    rfl
  · rw [scQuery_eq_proj, proj_scArrive_iter]
    exact ncQuery_true_of_pos (ncIter_rootX_pos K H T tid k hk1 hk2')
  · rw [scQuery_eq_proj, proj_scDepart_iter, proj_scArrive_iter,
      show projNC freshSC = freshNC from rfl, ncIter_cancel K H T tid k hk2']
    rfl
  · rw [fcArriveSeq_iter]
    show ((k % U64) != 0) = true
    simp only [bne_iff_ne, ne_eq]
    rw [Nat.mod_eq_of_lt hk2']
    omega
  · rw [fcArriveSeq_iter, fcDepartSeq_iter K H T tid k k (le_refl k) hk2',
      Nat.sub_self]
    rfl

/-- Claim C1 witness: the amended statement at the concrete valid input
K = 2, H = 1, T = 2, tid = 0, k = 2. -/
theorem claim_C1_witness :
    1 ≤ 2 ∧
    ((ncQuery freshNC = false ∧
      ncQuery ((ncArrive 2 1 2 0)^[2] freshNC) = true ∧
      ncQuery ((ncDepart 2 1 2 0)^[2] ((ncArrive 2 1 2 0)^[2] freshNC)) = false) ∧
    (scQuery freshSC = false ∧
      scQuery ((scArrive 2 1 2 0)^[2] freshSC) = true ∧
      scQuery ((scDepart 2 1 2 0)^[2] ((scArrive 2 1 2 0)^[2] freshSC)) = false) ∧
    (fcQuery freshFC = false ∧
      fcQuery ((fcArriveSeq 2 1 2 0)^[2] freshFC) = true ∧
      fcQuery ((fcDepartSeq 2 1 2 0)^[2] ((fcArriveSeq 2 1 2 0)^[2] freshFC)) = false)) :=
  ⟨by omega,
   claim_C1_seq_arrive_depart_query 2 1 2 0 2 (by omega) (by omega) (by omega)
     (by omega) (by norm_num)⟩

set_option maxRecDepth 4000 in
/-- Claim C1 counterexample: on the valid construction K = 2, H = 0, T = 1 of
the no-contention variant, after k = 2^64 ≥ 1 sequential Arrive(0) calls the
64-bit root counter has wrapped around to zero and Query() returns false,
although the claim as stated promises true for every k ≥ 1. -/
theorem claim_C1_counterexample :
    1 ≤ 2 ^ 64 ∧
    ncQuery ((ncArrive 2 0 1 0)^[2 ^ 64] freshNC) = false := by
  constructor
  · norm_num
  · have hleaf : get_leaf_for_thread 2 0 1 0 = 0 := by decide
    have harr : ∀ s : NCState, ncArrive 2 0 1 0 s = ncRootArrive s := by
      intro s
      unfold ncArrive
      rw [if_pos hleaf]
    have hroot : ∀ m : Nat, ((ncArrive 2 0 1 0)^[m] freshNC).rootX = m % U64 := by
      intro m
      induction m with
      | zero => rfl
      | succ m ih =>
        rw [Function.iterate_succ_apply', harr]
        show ctrInc ((ncArrive 2 0 1 0)^[m] freshNC).rootX = (m + 1) % U64
        rw [ih]
        exact Nat.mod_add_mod m U64 1
    have hzero : ((ncArrive 2 0 1 0)^[2 ^ 64] freshNC).rootX = 0 := by
      rw [hroot]
      exact Nat.mod_self (2 ^ 64)
    show (((ncArrive 2 0 1 0)^[2 ^ 64] freshNC).rootX != 0) = false
    rw [hzero]
    rfl

set_option maxRecDepth 4000 in
/-- Claim C2 counterexample: the claim fixes threads_per_leaf to the exact
max(1, ceil(T / leaf_count)), but the constructor computes the ceiling in
double precision.  At K = 2, H = 1, T = 2^63 + 1 the conversion of T to
double rounds down to 2^63, so the stored threads_per_leaf is 2^62 instead
of the exact 2^62 + 1, and for tid = 2^62 the computed leaf index differs
from the claimed formula (offset + 1 instead of offset + 0). -/
theorem claim_C2_counterexample :
    tpl_of 2 1 (2 ^ 63 + 1) = 2 ^ 62 ∧
    (2 ^ 62 : Nat) ≠
      max 1 ((2 ^ 63 + 1 + leaves_count 2 1 - 1) / leaves_count 2 1) ∧
    get_leaf_for_thread 2 1 (2 ^ 63 + 1) (2 ^ 62) ≠
      nodes_count 2 1 - leaves_count 2 1 +
        ((2 ^ 62 / max 1 ((2 ^ 63 + 1 + leaves_count 2 1 - 1) / leaves_count 2 1)) %
          leaves_count 2 1) := by
  refine ⟨by decide, by decide, by decide⟩

/-- Claim C2 (amended): for every valid (K ≥ 2, H ≥ 0, T ≥ 1) with
K^(H+1) ≤ 2^64 (so the size_t arithmetic does not wrap) and every tid < T,
the leaf index equals node_count − leaf_count + ((tid / threads_per_leaf)
mod leaf_count), where threads_per_leaf is the value the constructor stored
— the double-precision ceiling of T / leaf_count clamped to at least 1,
which can differ from the exact max(1, ⌈T / leaf_count⌉) once an operand
exceeds 2^53 (see the counterexample) — and this index always lies in the
last K^H indices of the node array, i.e. in
[node_count − leaf_count, node_count). -/
theorem claim_C2_leaf_index (K H T tid : Nat) (hK : 2 ≤ K)
    (hb : K ^ (H + 1) ≤ 2 ^ 64) (hT : 1 ≤ T) (htid : tid < T) :
    get_leaf_for_thread K H T tid =
      nodes_count K H - leaves_count K H +
        ((tid / tpl_of K H T) % leaves_count K H) ∧
    1 ≤ tpl_of K H T ∧
    leaves_count K H = K ^ H ∧
    nodes_count K H - leaves_count K H ≤ get_leaf_for_thread K H T tid ∧
    get_leaf_for_thread K H T tid < nodes_count K H :=
  ⟨get_leaf_eq hK hb T tid, tpl_of_pos K H T, leaves_count_eq hK hb,
   leaf_ge hK hb T tid, leaf_lt_nodes hK hb T tid⟩

/-- Claim C2 witness: the amended statement at K = 3, H = 2, T = 9, tid = 8
(scenario S6 of the specification: leaf_of(8) = 12). -/
theorem claim_C2_witness :
    2 ≤ 3 ∧
    (get_leaf_for_thread 3 2 9 8 =
      nodes_count 3 2 - leaves_count 3 2 +
        ((8 / tpl_of 3 2 9) % leaves_count 3 2) ∧
    1 ≤ tpl_of 3 2 9 ∧
    leaves_count 3 2 = 3 ^ 2 ∧
    nodes_count 3 2 - leaves_count 3 2 ≤ get_leaf_for_thread 3 2 9 8 ∧
    get_leaf_for_thread 3 2 9 8 < nodes_count 3 2) :=
  ⟨by omega,
   claim_C2_leaf_index 3 2 9 8 (by omega) (by norm_num) (by omega) (by omega)⟩

set_option maxRecDepth 4000 in
/-- Claim C3 counterexample: at K = 2, H = 64 the size_t power pow_int(2, 65)
wraps to 0, so the code computes nodes_count = (0 − 1)/(2 − 1) = 2^64 − 1,
not the exact (2^65 − 1)/(2 − 1) = 2^65 − 1 asserted by the claim. -/
theorem claim_C3_counterexample :
    nodes_count 2 64 = 2 ^ 64 - 1 ∧
    (2 ^ (64 + 1) - 1) / (2 - 1) = 2 ^ 65 - 1 ∧
    nodes_count 2 64 ≠ (2 ^ (64 + 1) - 1) / (2 - 1) := by
  refine ⟨by decide, by decide, by decide⟩

/-- Claim C3 (amended): for every K ≥ 2 and H ≥ 0 with K^(H+1) ≤ 2^64 (so
the size_t arithmetic does not wrap): nodes_count(K, H) =
(K^(H+1) − 1)/(K − 1), leaves_count(K, H) = K^H, parent(i) = (i − 1)/K, and
iterating parent H times from any leaf index (the last K^H indices) reaches
the root index 0. -/
theorem claim_C3_tree_shape (K H : Nat) (hK : 2 ≤ K)
    (hb : K ^ (H + 1) ≤ 2 ^ 64) :
    nodes_count K H = (K ^ (H + 1) - 1) / (K - 1) ∧
    leaves_count K H = K ^ H ∧
    (∀ i, parent K i = (i - 1) / K) ∧
    (∀ l, nodes_count K H - leaves_count K H ≤ l → l < nodes_count K H →
      (parent K)^[H] l = 0) := by
  refine ⟨nodes_count_eq hK hb, leaves_count_eq hK hb, fun i => rfl, ?_⟩
  intro l h1 h2
  have hN : nodes_count K H = geomS K (H + 1) := nodes_count_eq_geomS hK hb
  have hNL : nodes_count K H - leaves_count K H = geomS K H := by
    rw [hN, geomS_succ_pow, leaves_count_eq hK hb]
    omega
  apply parent_iter_root (show 1 ≤ K by omega) H l
  · rw [← hNL]
    exact h1
  · rw [← hN]
    exact h2

/-- Claim C3 witness: the amended statement at K = 3, H = 2 (scenario S6:
node_count = 13, leaf_count = 9, parent(12) = 3, parent(3) = 0). -/
theorem claim_C3_witness :
    2 ≤ 3 ∧
    (nodes_count 3 2 = (3 ^ (2 + 1) - 1) / (3 - 1) ∧
    leaves_count 3 2 = 3 ^ 2 ∧
    (∀ i, parent 3 i = (i - 1) / 3) ∧
    (∀ l, nodes_count 3 2 - leaves_count 3 2 ≤ l → l < nodes_count 3 2 →
      (parent 3)^[2] l = 0)) :=
  ⟨by omega, claim_C3_tree_shape 3 2 (by omega) (by norm_num)⟩

set_option maxRecDepth 4000 in
/-- Claim C4 counterexample: at K = 2^64 − 1, H = 1 the size_t power
pow_int(K, 2) wraps to 1, so the constructor computes total_nodes = 0 and
`new node[0]` succeeds allocating zero nodes, while the claim asserts
exactly N = (K^(H+1) − 1)/(K − 1) = 2^64 nodes. -/
theorem claim_C4_counterexample :
    (mkTree (2 ^ 64 - 1) 1 1).total_nodes = 0 ∧
    ((2 ^ 64 - 1) ^ (1 + 1) - 1) / ((2 ^ 64 - 1) - 1) = 2 ^ 64 ∧
    (mkTree (2 ^ 64 - 1) 1 1).total_nodes ≠
      ((2 ^ 64 - 1) ^ (1 + 1) - 1) / ((2 ^ 64 - 1) - 1) := by
  refine ⟨by decide, by decide, by decide⟩

/-- Claim C4 (amended): for every valid (K ≥ 2, H ≥ 0, T ≥ 1) with
K^(H+1) ≤ 2^64 (so the size_t arithmetic does not wrap), construction
builds exactly N = (K^(H+1) − 1)/(K − 1) nodes, initializes every node
counter to 0 and every announce flag to false (and the root counter to 0),
and fixes each non-root node's parent index to (i − 1)/K. -/
theorem claim_C4_construction (K H T : Nat) (hK : 2 ≤ K)
    (hb : K ^ (H + 1) ≤ 2 ^ 64) (hT : 1 ≤ T) :
    (mkTree K H T).total_nodes = (K ^ (H + 1) - 1) / (K - 1) ∧
    (mkTree K H T).rootX = 0 ∧
    (∀ i, i < (mkTree K H T).total_nodes →
      (mkTree K H T).nodesX i = 0 ∧ (mkTree K H T).nodesAnnounce i = false) ∧
    (∀ i, 1 ≤ i → i < (mkTree K H T).total_nodes →
      (mkTree K H T).nodesParent i = (i - 1) / K) := by
  refine ⟨?_, rfl, fun i _ => ⟨rfl, rfl⟩, ?_⟩
  · show nodes_count K H = _
    exact nodes_count_eq hK hb
  · intro i h1 h2
    have hN1 : 1 ≤ nodes_count K H := nodes_pos hK hb
    have h2' : i < nodes_count K H := h2
    show ((List.range' 1 (nodes_count K H - 1)).foldl
        (fun f i => upd f i ((i - 1) / K)) (fun _ => 0)) i = (i - 1) / K
    rw [foldl_parents]
    rw [if_pos (by omega)]

/-- Claim C4 witness: the amended statement at K = 2, H = 1, T = 4. -/
theorem claim_C4_witness :
    2 ≤ 2 ∧
    ((mkTree 2 1 4).total_nodes = (2 ^ (1 + 1) - 1) / (2 - 1) ∧
    (mkTree 2 1 4).rootX = 0 ∧
    (∀ i, i < (mkTree 2 1 4).total_nodes →
      (mkTree 2 1 4).nodesX i = 0 ∧ (mkTree 2 1 4).nodesAnnounce i = false) ∧
    (∀ i, 1 ≤ i → i < (mkTree 2 1 4).total_nodes →
      (mkTree 2 1 4).nodesParent i = (i - 1) / 2)) :=
  ⟨by omega, claim_C4_construction 2 1 4 (by omega) (by norm_num) (by omega)⟩

/-- Claim C5 counterexample: the claim states that the busy-wait delay
doubles from 1 up to a cap of 2^16 before backoff() switches to yielding.
On the code the cap is MAX_TRIES = 16: after five backoff() calls the
member tries is 32 — far below 2^16 — yet the sixth call already yields
instead of pausing. -/
theorem claim_C5_counterexample :
    nthBackoffState 5 = ⟨32⟩ ∧ (32 : Nat) ≤ 2 ^ 16 ∧
    (backoffStep ⟨32⟩).1 = BackoffAction.yield := by
  refine ⟨?_, by norm_num, rfl⟩
  decide

/-- Claim C5 (amended): each backoff() call busies the CPU for a number of
pause cycles that doubles from 1 up to the cap MAX_TRIES = 16 (not 2^16):
while tries ≤ 16 the call pauses tries cycles and doubles tries, and once
tries exceeds 16 the call instead yields the thread cooperatively; reset()
restores the delay to the initial value 1.  From a fresh object the first
five calls pause 2^0, …, 2^4 cycles and every later call yields. -/
theorem claim_C5_backoff (b : ExpBackoff) (n : Nat) :
    (b.tries ≤ MAX_TRIES →
      backoffStep b = (BackoffAction.pause b.tries, ⟨b.tries * 2⟩)) ∧
    (MAX_TRIES < b.tries → backoffStep b = (BackoffAction.yield, b)) ∧
    backoffReset b = ⟨1⟩ ∧
    (n < 5 → nthBackoffAction n = BackoffAction.pause (2 ^ n)) ∧
    (5 ≤ n → nthBackoffAction n = BackoffAction.yield) := by
  refine ⟨?_, ?_, rfl, ?_, ?_⟩
  · intro h
    unfold backoffStep
    rw [if_pos h]
  · intro h
    unfold backoffStep
    rw [if_neg (by omega)]
  · intro h
    unfold nthBackoffAction
    rw [nthBackoffState_eq]
    have hmin : min n 5 = n := by omega
    rw [hmin]
    have hle : 2 ^ n ≤ MAX_TRIES := by
      have hpow : (2 : Nat) ^ n ≤ 2 ^ 4 := Nat.pow_le_pow_right (by omega) (by omega)
      have h16 : (2 : Nat) ^ 4 = 16 := by norm_num
      unfold MAX_TRIES
      omega
    unfold backoffStep
    rw [if_pos hle]
  · intro h
    unfold nthBackoffAction
    rw [nthBackoffState_eq]
    have hmin : min n 5 = 5 := by omega
    rw [hmin]
    rfl

/-- Claim C5 witness: the amended statement at tries = 3 and n = 2 / n = 7:
a call with tries = 3 pauses 3 cycles and doubles tries; the third call
from fresh pauses 4 cycles; the eighth call yields. -/
theorem claim_C5_witness :
    backoffStep ⟨3⟩ = (BackoffAction.pause 3, ⟨6⟩) ∧
    nthBackoffAction 2 = BackoffAction.pause 4 ∧
    nthBackoffAction 7 = BackoffAction.yield :=
  ⟨(claim_C5_backoff ⟨3⟩ 0).1 (by norm_num [MAX_TRIES]),
   (claim_C5_backoff ⟨3⟩ 2).2.2.2.1 (by omega),
   (claim_C5_backoff ⟨3⟩ 7).2.2.2.2 (by omega)⟩

/-- Claim C6: ArriveDirectly adds 1 to the root counter (via its CAS loop
with exponential backoff) and sets use_snzi_tree_flag exactly when the
number f of CAS failures within the call reaches the threshold
MaxContentionNumFailures = 5, leaving the other two flags alone;
DepartDirectly unconditionally subtracts 1 from the root counter and, if
use_snzi_tree_flag is set, sets both use_snzi_in_arrive and
use_snzi_in_depart. -/
theorem claim_C6_direct_ops (f x : Nat) (cont : contention_status) :
    (ArriveDirectly f x cont).1 = (x + 1) % 2 ^ 64 ∧
    (ArriveDirectly f x cont).2.use_snzi_tree_flag =
      (cont.use_snzi_tree_flag || decide (5 ≤ f)) ∧
    (ArriveDirectly f x cont).2.use_snzi_in_arrive = cont.use_snzi_in_arrive ∧
    (ArriveDirectly f x cont).2.use_snzi_in_depart = cont.use_snzi_in_depart ∧
    (DepartDirectly x cont).1 = (x + (2 ^ 64 - 1)) % 2 ^ 64 ∧
    (DepartDirectly x cont).2.use_snzi_tree_flag = cont.use_snzi_tree_flag ∧
    (DepartDirectly x cont).2.use_snzi_in_arrive =
      (cont.use_snzi_in_arrive || cont.use_snzi_tree_flag) ∧
    (DepartDirectly x cont).2.use_snzi_in_depart =
      (cont.use_snzi_in_depart || cont.use_snzi_tree_flag) := by
  obtain ⟨a, d, t⟩ := cont
  unfold ArriveDirectly DepartDirectly MaxContentionNumFailures
  by_cases hf : 5 ≤ f
  · cases t <;> simp [hf, U64]
  · cases t <;> simp [hf, U64]

/-- Claim C7: escalation in the full variant is one-way.  Neither
Arrive(tid, status) — with any number f of CAS failures on the direct
path — nor Depart(tid, status) ever changes any of the three boolean fields
of a contention_status from true back to false (Query() takes no status and
is a pure read of the root counter, so it cannot change them either). -/
theorem claim_C7_escalation_one_way (K H T tid f : Nat) (s : SCState)
    (cont : contention_status) :
    ((cont.use_snzi_in_arrive = true →
        (fcArrive K H T tid f (s, cont)).2.use_snzi_in_arrive = true) ∧
     (cont.use_snzi_in_depart = true →
        (fcArrive K H T tid f (s, cont)).2.use_snzi_in_depart = true) ∧
     (cont.use_snzi_tree_flag = true →
        (fcArrive K H T tid f (s, cont)).2.use_snzi_tree_flag = true)) ∧
    ((cont.use_snzi_in_arrive = true →
        (fcDepart K H T tid (s, cont)).2.use_snzi_in_arrive = true) ∧
     (cont.use_snzi_in_depart = true →
        (fcDepart K H T tid (s, cont)).2.use_snzi_in_depart = true) ∧
     (cont.use_snzi_tree_flag = true →
        (fcDepart K H T tid (s, cont)).2.use_snzi_tree_flag = true)) := by
  obtain ⟨a, d, t⟩ := cont
  unfold fcArrive fcDepart ArriveDirectly DepartDirectly
  cases a <;> cases d <;> cases t <;> by_cases hf : MaxContentionNumFailures ≤ f <;>
    simp [hf]

/-- Claim C7 witness: an all-true contention_status stays true under both
operations at the concrete input K = 2, H = 0, T = 1, tid = 0, f = 0. -/
theorem claim_C7_witness :
    (fcArrive 2 0 1 0 0 (freshSC, ⟨true, true, true⟩)).2.use_snzi_in_arrive = true ∧
    (fcDepart 2 0 1 0 (freshSC, ⟨true, true, true⟩)).2.use_snzi_tree_flag = true :=
  ⟨(claim_C7_escalation_one_way 2 0 1 0 0 freshSC ⟨true, true, true⟩).1.1 rfl,
   (claim_C7_escalation_one_way 2 0 1 0 0 freshSC ⟨true, true, true⟩).2.2.2 rfl⟩

/-- Claim C8: for every (K, H, T), each variant's constructor raises
invalid-argument if and only if K < 2 (in particular K = 1 raises), every
H ≥ 0 is accepted, and for K ≥ 2 construction succeeds with the initialized
member state (allocation failure is outside the model). -/
theorem claim_C8_ctor_validation (K H T : Nat) :
    ((∃ msg, no_contention_handling_snzi_mk K H T = Except.error msg) ↔ K < 2) ∧
    (2 ≤ K → no_contention_handling_snzi_mk K H T = Except.ok (mkTree K H T)) ∧
    ((∃ msg, semi_contention_handling_snzi_mk K H T = Except.error msg) ↔ K < 2) ∧
    (2 ≤ K → semi_contention_handling_snzi_mk K H T = Except.ok (mkTree K H T)) ∧
    ((∃ msg, full_contention_handling_snzi_mk K H T = Except.error msg) ↔ K < 2) ∧
    (2 ≤ K → full_contention_handling_snzi_mk K H T = Except.ok (mkTree K H T)) := by
  unfold no_contention_handling_snzi_mk semi_contention_handling_snzi_mk
    full_contention_handling_snzi_mk
  by_cases hK : K < 2
  · simp only [if_pos hK]
    exact ⟨⟨fun _ => hK, fun _ => ⟨_, rfl⟩⟩, fun h => absurd h (by omega),
      ⟨fun _ => hK, fun _ => ⟨_, rfl⟩⟩, fun h => absurd h (by omega),
      ⟨fun _ => hK, fun _ => ⟨_, rfl⟩⟩, fun h => absurd h (by omega)⟩
  · rw [if_neg hK]
    have hiff : (∃ msg, (Except.ok (mkTree K H T) : Except String SnziRep) =
        Except.error msg) ↔ K < 2 := by
      constructor
      · rintro ⟨msg, h⟩
        exact absurd h (by simp)
      · intro h
        exact absurd h hK
    exact ⟨hiff, fun _ => rfl, hiff, fun _ => rfl, hiff, fun _ => rfl⟩

/-- Claim C8 witness: K = 1 raises invalid-argument in all three variants,
and K = 2 constructs successfully. -/
theorem claim_C8_witness :
    (∃ msg, no_contention_handling_snzi_mk 1 0 1 = Except.error msg) ∧
    no_contention_handling_snzi_mk 2 1 4 = Except.ok (mkTree 2 1 4) ∧
    (∃ msg, semi_contention_handling_snzi_mk 1 0 1 = Except.error msg) ∧
    semi_contention_handling_snzi_mk 2 1 4 = Except.ok (mkTree 2 1 4) ∧
    (∃ msg, full_contention_handling_snzi_mk 1 0 1 = Except.error msg) ∧
    full_contention_handling_snzi_mk 2 1 4 = Except.ok (mkTree 2 1 4) :=
  ⟨(claim_C8_ctor_validation 1 0 1).1.mpr (by omega),
   (claim_C8_ctor_validation 2 1 4).2.1 (by omega),
   (claim_C8_ctor_validation 1 0 1).2.2.1.mpr (by omega),
   (claim_C8_ctor_validation 2 1 4).2.2.2.1 (by omega),
   (claim_C8_ctor_validation 1 0 1).2.2.2.2.1.mpr (by omega),
   (claim_C8_ctor_validation 2 1 4).2.2.2.2.2 (by omega)⟩

set_option maxRecDepth 4000 in
/-- Claim C9 counterexample: at K = 2^64 − 1, H = 1, T = 1, tid = 0 the
size_t arithmetic wraps: total_nodes is 0 while total_leaf_nodes is
2^64 − 1, so get_leaf_for_thread wraps to 1 and Arrive(0) accesses
others[1] — an index outside the zero-length node array, refuting the
claimed bound [1, total_nodes) for every valid-looking parameter triple. -/
theorem claim_C9_counterexample :
    (1 : Nat) ∈ (ncArriveAcc (2 ^ 64 - 1) 1 1 0 freshNC).2 ∧
    nodes_count (2 ^ 64 - 1) 1 = 0 := by
  constructor
  · have hleaf : get_leaf_for_thread (2 ^ 64 - 1) 1 1 0 = 1 := by decide
    unfold ncArriveAcc
    rw [hleaf, if_neg (by omega : ¬(1 : Nat) = 0)]
    rw [ncNodeArriveAcc, dif_neg (by omega : ¬(1 : Nat) = 0),
      if_pos (show freshNC.X 1 = 0 from rfl),
      if_pos (show ((1 : Nat) - 1) / (2 ^ 64 - 1) = 0 by decide)]
    show (1 : Nat) ∈ [1]
    exact List.mem_singleton.mpr rfl
  · decide

/-- Claim C9 (amended): for every valid (K ≥ 2, H ≥ 0, T ≥ 1) with
K^(H+1) ≤ 2^64 (so the size_t arithmetic does not wrap), every tid of the
unsigned size type (not only tid < T) and every tree state, all `others`
array indices accessed by Arrive(tid), Depart(tid) and their upward parent
propagation lie in [1, total_nodes); whenever the computed leaf or parent
index is 0 the operation dispatches to the separate root object, so slot 0
is never read or written.  (The bound holds for every possible stored
threads_per_leaf value, because only its clamp to at least 1 matters.) -/
theorem claim_C9_index_safety (K H T tid : Nat) (s : NCState) (hK : 2 ≤ K)
    (hb : K ^ (H + 1) ≤ 2 ^ 64) (hT : 1 ≤ T) :
    (∀ j ∈ (ncArriveAcc K H T tid s).2, 1 ≤ j ∧ j < nodes_count K H) ∧
    (∀ j ∈ (ncDepartAcc K H T tid s).2, 1 ≤ j ∧ j < nodes_count K H) := by
  have hlt := leaf_lt_nodes hK hb T tid
  constructor
  · unfold ncArriveAcc
    by_cases hleaf : get_leaf_for_thread K H T tid = 0
    · rw [if_pos hleaf]
      intro j hj
      exact absurd hj (List.not_mem_nil j)
    · rw [if_neg hleaf]
      exact ncNodeArriveAcc_range K (nodes_count K H) _ s
        (Nat.pos_of_ne_zero hleaf) hlt
  · unfold ncDepartAcc
    by_cases hleaf : get_leaf_for_thread K H T tid = 0
    · rw [if_pos hleaf]
      intro j hj
      exact absurd hj (List.not_mem_nil j)
    · rw [if_neg hleaf]
      exact ncNodeDepartAcc_range K (nodes_count K H) _ s
        (Nat.pos_of_ne_zero hleaf) hlt

/-- Claim C9 witness: the amended statement at K = 2, H = 1, T = 2, tid = 5
(an out-of-range tid) on a fresh tree. -/
theorem claim_C9_witness :
    2 ≤ 2 ∧
    ((∀ j ∈ (ncArriveAcc 2 1 2 5 freshNC).2, 1 ≤ j ∧ j < nodes_count 2 1) ∧
     (∀ j ∈ (ncDepartAcc 2 1 2 5 freshNC).2, 1 ≤ j ∧ j < nodes_count 2 1)) :=
  ⟨by omega,
   claim_C9_index_safety 2 1 2 5 freshNC (by omega) (by norm_num) (by omega)⟩

/-- Claim C10: stamped_counter's pack and extract operations are mutually
inverse: for 32-bit values s and c, stamped_counter(s, c).stamp() = s and
stamped_counter(s, c).counter() = c; and for a 64-bit value v,
stamped_counter(v).get_value() = v and
v = pack(extract_stamp(v), extract_counter(v)). -/
theorem claim_C10_stamped_counter (s c v : Nat)
    (hs : s < 2 ^ 32) (hc : c < 2 ^ 32) (hv : v < 2 ^ 64) :
    StampedCounter.stamp (StampedCounter.ofParts s c) = s ∧
    StampedCounter.counter (StampedCounter.ofParts s c) = c ∧
    StampedCounter.get_value (StampedCounter.ofValue v) = v ∧
    StampedCounter.pack (StampedCounter.extract_stamp v)
      (StampedCounter.extract_counter v) = v :=
  ⟨StampedCounter.extract_stamp_pack hs hc,
   StampedCounter.extract_counter_pack hc,
   rfl,
   StampedCounter.pack_extract hv⟩

/-- Claim C10 witness: the statement at s = 5, c = 7, v = 81985529216486895
(0x0123456789ABCDEF). -/
theorem claim_C10_witness :
    (5 : Nat) < 2 ^ 32 ∧
    (StampedCounter.stamp (StampedCounter.ofParts 5 7) = 5 ∧
    StampedCounter.counter (StampedCounter.ofParts 5 7) = 7 ∧
    StampedCounter.get_value (StampedCounter.ofValue 81985529216486895) =
      81985529216486895 ∧
    StampedCounter.pack (StampedCounter.extract_stamp 81985529216486895)
      (StampedCounter.extract_counter 81985529216486895) = 81985529216486895) :=
  ⟨by norm_num,
   claim_C10_stamped_counter 5 7 81985529216486895 (by norm_num) (by norm_num)
     (by norm_num)⟩
